import Mathlib

/-!
Verification of the SFC graph-resolution core of the l5x_sfc repository
(src/l5x/sfc.py) against its natural-language specification.

The Python source is shallowly embedded: XML elements become an inductive
tree, Python dicts become insertion-ordered association lists with
replace-on-update semantics, and the breadth-first relation resolver
becomes a well-founded recursive function over the finite adjacency.
-/

namespace L5X

/-! ## Python string primitives -/

/-- Whitespace set of CPython str.strip with no argument (ASCII part). -/
def pyIsSpace (c : Char) : Bool :=
  c = ' ' || c = '\t' || c = '\n' || c = '\r' || c = '\x0b' || c = '\x0c'

/-- Model of str.strip(): remove leading and trailing whitespace. -/
def pyStrip (s : String) : String :=
  ⟨((s.data.dropWhile pyIsSpace).reverse.dropWhile pyIsSpace).reverse⟩

/-- Numeric value of a decimal digit string (list of chars). -/
def parseDigits (l : List Char) : Nat :=
  l.foldl (fun acc c => acc * 10 + (c.toNat - '0'.toNat)) 0

/-- First maximal run of decimal digits in a character list; models the
first match of the regular expression for one-or-more digits. -/
def firstDigitRun : List Char → Option (List Char)
  | [] => none
  | c :: rest =>
    if c.isDigit then some (c :: rest.takeWhile Char.isDigit)
    else firstDigitRun rest

/-- Model of CPython int(str): optional surrounding whitespace, optional
sign, then one or more decimal digits; anything else raises, modelled as
none. -/
def pyIntString (s : String) : Option Int :=
  match (pyStrip s).data with
  | [] => none
  | '-' :: ds =>
      if ds ≠ [] ∧ ds.all Char.isDigit then some (-(parseDigits ds : Int)) else none
  | '+' :: ds =>
      if ds ≠ [] ∧ ds.all Char.isDigit then some (parseDigits ds : Int) else none
  | ds =>
      if ds.all Char.isDigit then some (parseDigits ds : Int) else none

/-- Model of CPython str.lower restricted to ASCII case mapping. -/
def pyLower (s : String) : String :=
  ⟨s.data.map Char.toLower⟩

/-- Truthiness filter for an optional string: Python treats None and the
empty string as falsy. -/
def truthy : Option String → Option String
  | some t => if t = "" then none else some t
  | none => none

/-! ## Stable insertion sort by a boolean relation

Python list.sort and sorted are stable; a stable insertion sort by the
same key produces the same list. -/

/-- Insert x into l, before the first element y with le x y. -/
def insLe {α : Type} (le : α → α → Bool) (x : α) : List α → List α
  | [] => [x]
  | y :: ys => if le x y then x :: y :: ys else y :: insLe le x ys

/-- Stable insertion sort by a boolean relation. -/
def insSort {α : Type} (le : α → α → Bool) : List α → List α
  | [] => []
  | x :: xs => insLe le x (insSort le xs)

/-! ## Insertion-ordered dictionaries

Python dicts preserve insertion order; assigning to an existing key
replaces the value in place. They are modelled as association lists. -/

/-- Dictionary assignment d[k] = v with Python semantics: replace in
place when the key exists, else append at the end. -/
def dictSet {α : Type} (d : List (String × α)) (k : String) (v : α) :
    List (String × α) :=
  if (d.find? (fun p => p.1 = k)).isSome then
    d.map (fun p => if p.1 = k then (k, v) else p)
  else d ++ [(k, v)]

/-- Dictionary lookup d.get(k). -/
def dictGet {α : Type} (d : List (String × α)) (k : String) : Option α :=
  (d.find? (fun p => p.1 = k)).map Prod.snd

/-- Adjacency-map update adj.setdefault(k, []).append(v). -/
def adjAppend (m : List (String × List String)) (k v : String) :
    List (String × List String) :=
  if (m.find? (fun p => p.1 = k)).isSome then
    m.map (fun p => if p.1 = k then (p.1, p.2 ++ [v]) else p)
  else m ++ [(k, [v])]

/-- Adjacency lookup adj.get(k, []) defaulting to the empty list. -/
def adjGet (m : List (String × List String)) (k : String) : List String :=
  ((m.find? (fun p => p.1 = k)).map Prod.snd).getD []

/-! ## The XML element model

ElementTree elements carry a tag, an attribute dictionary, optional text
and an ordered list of children. -/

/-- An already-parsed XML element. -/
inductive XmlElem : Type where
  | mk : String → List (String × String) → Option String → List XmlElem → XmlElem

/-- Tag name of an element. -/
def XmlElem.tag : XmlElem → String
  | .mk t _ _ _ => t

/-- Attribute dictionary of an element. -/
def XmlElem.attrs : XmlElem → List (String × String)
  | .mk _ a _ _ => a

/-- Direct text content of an element. -/
def XmlElem.text : XmlElem → Option String
  | .mk _ _ tx _ => tx

/-- Ordered child elements. -/
def XmlElem.children : XmlElem → List XmlElem
  | .mk _ _ _ ch => ch

/-- Model of element.attrib.get(key). -/
def attribGet (e : XmlElem) (k : String) : Option String :=
  dictGet e.attrs k

/-- Model of element.findall(tag) for a plain tag: all direct children
with that tag, in document order. -/
def findall (e : XmlElem) (t : String) : List XmlElem :=
  e.children.filter (fun c => c.tag = t)

/-- Model of element.find(tag) for a plain tag: first direct child with
that tag. -/
def findFirst (e : XmlElem) (t : String) : Option XmlElem :=
  e.children.find? (fun c => c.tag = t)

/-- All proper descendants of an element in document (preorder) order;
the carrier of an ElementTree descendant search. -/
def descendants (e : XmlElem) : List XmlElem :=
  (e.children.attach.map (fun c => c.1 :: descendants c.1)).flatten
termination_by sizeOf e
decreasing_by
  cases e with
  | mk t a tx ch =>
      have hm : sizeOf c.1 < sizeOf ch := List.sizeOf_lt_of_mem c.2
      simp only [XmlElem.children] at hm ⊢
      simp only [XmlElem.mk.sizeOf_spec]
      omega

/-- Model of element.find(path) for a descendant path with an attribute
predicate: first descendant with the given tag whose attribute attr
equals val. -/
def findDescWithAttr (e : XmlElem) (t attr val : String) : Option XmlElem :=
  (descendants e).find? (fun d => d.tag = t && attribGet d attr = some val)

/-! ## Parsing the SFC container (SFC.__init__ and helpers) -/

/-- Branch record: id, its Leg ids, BranchFlow and BranchType. -/
structure Branch : Type where
  id : String
  legs : List String
  flow : Option String
  btype : Option String
deriving DecidableEq

/-- DirectedLink record: optional FromID and ToID attributes. -/
structure DirectedLink : Type where
  from_id : Option String
  to_id : Option String
deriving DecidableEq

/-- Model of SFC._get_elements_by_tag: an ID-keyed dictionary of the
matching child elements, in document order, skipping elements without an
ID attribute; a repeated ID overwrites in place.  The registry stores the
element itself (the Step and Transition wrappers hold only the element). -/
def get_elements_by_tag (parent : XmlElem) (t : String) :
    List (String × XmlElem) :=
  (findall parent t).foldl
    (fun out el =>
      match attribGet el "ID" with
      | none => out
      | some eid => dictSet out eid el) []

/-- Model of SFC._get_branches: Branch elements keyed by ID; legs are the
IDs of Leg children that carry a truthy (non-empty) ID. -/
def get_branches (parent : XmlElem) : List (String × Branch) :=
  (findall parent "Branch").foldl
    (fun out el =>
      match attribGet el "ID" with
      | none => out
      | some bid =>
          let legs := (findall el "Leg").filterMap
            (fun l => truthy (attribGet l "ID"))
          dictSet out bid
            ⟨bid, legs, attribGet el "BranchFlow", attribGet el "BranchType"⟩)
    []

/-- Model of the leg-to-branch map built in SFC.__init__. -/
def build_leg_to_branch (branches : List (String × Branch)) :
    List (String × String) :=
  branches.foldl
    (fun m p => p.2.legs.foldl (fun m leg => dictSet m leg p.1) m) []

/-- The parsed SFC container: the state SFC.__init__ builds before the
relation resolver runs. -/
structure SFC : Type where
  steps : List (String × XmlElem)
  transitions : List (String × XmlElem)
  branches : List (String × Branch)
  legToBranch : List (String × String)
  directedLinks : List DirectedLink

/-- Model of SFC.__init__ on a content element (relation wiring and
presets are separate passes, modelled below as functions of this state). -/
def SFC.ofElement (root : XmlElem) : SFC :=
  let branches := get_branches root
  { steps := get_elements_by_tag root "Step"
    transitions := get_elements_by_tag root "Transition"
    branches := branches
    legToBranch := build_leg_to_branch branches
    directedLinks := (findall root "DirectedLink").map
      (fun el => ⟨attribGet el "FromID", attribGet el "ToID"⟩) }

/-! ## The raw adjacency (edge collector of SFC._build_relations) -/

/-- Directed edges in the order SFC._build_relations appends them to the
forward adjacency: DirectedLink pairs with both endpoints present, then
for each Branch either branch-to-leg edges (diverge flow) or
leg-to-branch edges (converge or unspecified flow).  The reverse
adjacency receives exactly the swapped pairs in the same order. -/
def SFC.edges (sfc : SFC) : List (String × String) :=
  (sfc.directedLinks.filterMap
    (fun dl =>
      match dl.from_id, dl.to_id with
      | some frm, some tgt => some (frm, tgt)
      | _, _ => none))
  ++ (sfc.branches.map
      (fun p =>
        if pyLower (p.2.flow.getD "") = "diverge" then
          p.2.legs.map (fun leg => (p.1, leg))
        else
          p.2.legs.map (fun leg => (leg, p.1)))).flatten

/-- Fold a list of (from, to) pairs into an adjacency map by repeated
setdefault-append, as SFC._build_relations does. -/
def buildMap (es : List (String × String)) : List (String × List String) :=
  es.foldl (fun m e => adjAppend m e.1 e.2) []

/-- The forward adjacency adj of SFC._build_relations. -/
def SFC.adj (sfc : SFC) : List (String × List String) :=
  buildMap sfc.edges

/-- The reverse adjacency radj of SFC._build_relations. -/
def SFC.radj (sfc : SFC) : List (String × List String) :=
  buildMap (sfc.edges.map Prod.swap)

/-- Node kinds distinguished by the traversal. -/
inductive NodeType : Type where
  | step | transition | branch | leg | other
deriving DecidableEq

/-- Model of the node_type helper inside SFC._build_relations: membership
tests against the registries in priority order. -/
def node_type (sfc : SFC) (nid : String) : NodeType :=
  if (dictGet sfc.steps nid).isSome then .step
  else if (dictGet sfc.transitions nid).isSome then .transition
  else if (dictGet sfc.branches nid).isSome then .branch
  else if (dictGet sfc.legToBranch nid).isSome then .leg
  else .other

/-! ## The bounded traversal (find_immediate_transitions)

The Python loop is a breadth-first search over the raw adjacency.  One
iteration of its inner for-loop over the neighbors of the dequeued node
is processNeighbors; the while-loop is the recursive bfs, terminating
because every enqueued node is fresh and drawn from the finite set of
adjacency targets.  The terminal parameter is the node kind recorded as
a match: the source instantiates it with the Transition kind. -/

/-- Test for a recorded terminal match. -/
def isTerm (ntype : String → NodeType) (terminal : NodeType) (x : String) : Bool :=
  decide (ntype x = terminal)

/-- Test for a pass-through Branch or Leg node. -/
def isPass (ntype : String → NodeType) (x : String) : Bool :=
  decide (ntype x = NodeType.branch) || decide (ntype x = NodeType.leg)

/-- Inner neighbor loop of the traversal: each neighbor not yet seen is
marked seen; a terminal neighbor is recorded, a Branch or Leg neighbor is
queued for expansion, any other neighbor is dropped.  Returns the updated
seen set, the updated found set and the queue additions. -/
def processNeighbors (ntype : String → NodeType) (terminal : NodeType) :
    List String → List String → List String → List String →
      List String × List String × List String
  | [], seen, found, qadd => (seen, found, qadd)
  | nb :: rest, seen, found, qadd =>
    if nb ∈ seen then processNeighbors ntype terminal rest seen found qadd
    else
      if ntype nb = terminal then
        processNeighbors ntype terminal rest (seen ++ [nb]) (found ++ [nb]) qadd
      else if ntype nb = NodeType.branch ∨ ntype nb = NodeType.leg then
        processNeighbors ntype terminal rest (seen ++ [nb]) found (qadd ++ [nb])
      else
        processNeighbors ntype terminal rest (seen ++ [nb]) found qadd

/-- All ids that can ever be enqueued or recorded: the distinct targets
of the adjacency map.  This finite carrier bounds the traversal. -/
def allTargets (adj : List (String × List String)) : List String :=
  ((adj.map Prod.snd).flatten).dedup

/-- Structural description of one neighbor pass: the fresh neighbors are
appended to seen in order; the terminal ones among them to found; the
pass-through non-terminal ones to the queue additions. -/
theorem pn_spec (ntype : String → NodeType) (terminal : NodeType)
    (nbs : List String) :
    ∀ seen found qadd, ∃ news : List String,
      processNeighbors ntype terminal nbs seen found qadd =
        (seen ++ news,
         found ++ news.filter (isTerm ntype terminal),
         qadd ++ news.filter (fun x => !isTerm ntype terminal x && isPass ntype x))
      ∧ news.Nodup
      ∧ (∀ x ∈ news, x ∈ nbs ∧ x ∉ seen)
      ∧ (∀ x ∈ nbs, x ∈ seen ∨ x ∈ news) := by
  induction nbs with
  | nil =>
      intro seen found qadd
      exact ⟨[], by simp [processNeighbors]⟩
  | cons nb rest ih =>
      intro seen found qadd
      by_cases hseen : nb ∈ seen
      · obtain ⟨news, heq, hnd, hfresh, hcov⟩ := ih seen found qadd
        refine ⟨news, ?_, hnd, ?_, ?_⟩
        · rw [show processNeighbors ntype terminal (nb :: rest) seen found qadd =
              processNeighbors ntype terminal rest seen found qadd by
            simp [processNeighbors, hseen]]
          exact heq
        · intro x hx
          exact ⟨List.mem_cons_of_mem _ (hfresh x hx).1, (hfresh x hx).2⟩
        · intro x hx
          rcases List.mem_cons.mp hx with rfl | hx
          · exact Or.inl hseen
          · exact hcov x hx
      · have hstep : ∀ found2 qadd2, ∃ news : List String,
            processNeighbors ntype terminal rest (seen ++ [nb]) found2 qadd2 =
              (seen ++ [nb] ++ news,
               found2 ++ news.filter (isTerm ntype terminal),
               qadd2 ++ news.filter
                 (fun x => !isTerm ntype terminal x && isPass ntype x))
            ∧ news.Nodup
            ∧ (∀ x ∈ news, x ∈ rest ∧ x ∉ seen ++ [nb])
            ∧ (∀ x ∈ rest, x ∈ seen ++ [nb] ∨ x ∈ news) := fun f2 q2 => ih _ f2 q2
        by_cases hterm : ntype nb = terminal
        · obtain ⟨news, heq, hnd, hfresh, hcov⟩ := hstep (found ++ [nb]) qadd
          refine ⟨nb :: news, ?_, ?_, ?_, ?_⟩
          · rw [show processNeighbors ntype terminal (nb :: rest) seen found qadd =
                processNeighbors ntype terminal rest (seen ++ [nb]) (found ++ [nb])
                  qadd by
              simp [processNeighbors, hseen, hterm]]
            rw [heq]
            refine congrArg₂ Prod.mk ?_ (congrArg₂ Prod.mk ?_ ?_)
            · simp
            · simp [List.filter_cons, isTerm, hterm]
            · simp [List.filter_cons, isTerm, hterm]
          · exact List.nodup_cons.mpr
              ⟨fun hmem => by simpa using ((hfresh nb hmem).2), hnd⟩
          · intro x hx
            rcases List.mem_cons.mp hx with rfl | hx
            · exact ⟨List.mem_cons_self _ _, hseen⟩
            · refine ⟨List.mem_cons_of_mem _ (hfresh x hx).1, fun hc => ?_⟩
              exact (hfresh x hx).2 (List.mem_append_left _ hc)
          · intro x hx
            rcases List.mem_cons.mp hx with rfl | hx
            · exact Or.inr (List.mem_cons_self _ _)
            · rcases hcov x hx with hin | hin
              · rcases List.mem_append.mp hin with h1 | h1
                · exact Or.inl h1
                · exact Or.inr (by simpa using Or.inl (List.mem_singleton.mp h1))
              · exact Or.inr (List.mem_cons_of_mem _ hin)
        · by_cases hpass : ntype nb = NodeType.branch ∨ ntype nb = NodeType.leg
          · obtain ⟨news, heq, hnd, hfresh, hcov⟩ := hstep found (qadd ++ [nb])
            refine ⟨nb :: news, ?_, ?_, ?_, ?_⟩
            · rw [show processNeighbors ntype terminal (nb :: rest) seen found qadd =
                  processNeighbors ntype terminal rest (seen ++ [nb]) found
                    (qadd ++ [nb]) by
                simp [processNeighbors, hseen, hterm, hpass]]
              rw [heq]
              refine congrArg₂ Prod.mk ?_ (congrArg₂ Prod.mk ?_ ?_)
              · simp
              · simp [List.filter_cons, isTerm, hterm]
              · have hp : isPass ntype nb = true := by
                  rcases hpass with h | h <;> simp [isPass, h]
                simp [List.filter_cons, isTerm, hterm, hp]
            · exact List.nodup_cons.mpr
                ⟨fun hmem => by simpa using ((hfresh nb hmem).2), hnd⟩
            · intro x hx
              rcases List.mem_cons.mp hx with rfl | hx
              · exact ⟨List.mem_cons_self _ _, hseen⟩
              · refine ⟨List.mem_cons_of_mem _ (hfresh x hx).1, fun hc => ?_⟩
                exact (hfresh x hx).2 (List.mem_append_left _ hc)
            · intro x hx
              rcases List.mem_cons.mp hx with rfl | hx
              · exact Or.inr (List.mem_cons_self _ _)
              · rcases hcov x hx with hin | hin
                · rcases List.mem_append.mp hin with h1 | h1
                  · exact Or.inl h1
                  · exact Or.inr (by simpa using Or.inl (List.mem_singleton.mp h1))
                · exact Or.inr (List.mem_cons_of_mem _ hin)
          · obtain ⟨news, heq, hnd, hfresh, hcov⟩ := hstep found qadd
            refine ⟨nb :: news, ?_, ?_, ?_, ?_⟩
            · rw [show processNeighbors ntype terminal (nb :: rest) seen found qadd =
                  processNeighbors ntype terminal rest (seen ++ [nb]) found qadd by
                simp [processNeighbors, hseen, hterm, hpass]]
              rw [heq]
              refine congrArg₂ Prod.mk ?_ (congrArg₂ Prod.mk ?_ ?_)
              · simp
              · simp [List.filter_cons, isTerm, hterm]
              · have hp : isPass ntype nb = false := by
                  simp only [isPass, Bool.or_eq_false_iff, decide_eq_false_iff_not]
                  exact ⟨fun h => hpass (Or.inl h), fun h => hpass (Or.inr h)⟩
                simp [List.filter_cons, isTerm, hterm, hp]
            · exact List.nodup_cons.mpr
                ⟨fun hmem => by simpa using ((hfresh nb hmem).2), hnd⟩
            · intro x hx
              rcases List.mem_cons.mp hx with rfl | hx
              · exact ⟨List.mem_cons_self _ _, hseen⟩
              · refine ⟨List.mem_cons_of_mem _ (hfresh x hx).1, fun hc => ?_⟩
                exact (hfresh x hx).2 (List.mem_append_left _ hc)
            · intro x hx
              rcases List.mem_cons.mp hx with rfl | hx
              · exact Or.inr (List.mem_cons_self _ _)
              · rcases hcov x hx with hin | hin
                · rcases List.mem_append.mp hin with h1 | h1
                  · exact Or.inl h1
                  · exact Or.inr (by simpa using Or.inl (List.mem_singleton.mp h1))
                · exact Or.inr (List.mem_cons_of_mem _ hin)

theorem adjGet_subset_allTargets (adj : List (String × List String))
    (k x : String) (hx : x ∈ adjGet adj k) : x ∈ allTargets adj := by
  unfold adjGet at hx
  cases hfind : adj.find? (fun p => p.1 = k) with
  | none => rw [hfind] at hx; simp at hx
  | some p =>
      rw [hfind] at hx
      simp only [Option.map_some', Option.getD_some] at hx
      have hp : p ∈ adj := List.mem_of_find?_eq_some hfind
      exact List.mem_dedup.mpr
        (List.mem_flatten.mpr ⟨p.2, List.mem_map_of_mem Prod.snd hp, hx⟩)

/-- Counting argument for termination: marking the fresh nodes news as
seen frees up at least news.length units of the unseen budget. -/
theorem seen_budget {U seen news : List String}
    (hU : U.Nodup) (hnd : news.Nodup)
    (hsub : ∀ x ∈ news, x ∈ U ∧ x ∉ seen) :
    (U.filter (fun x => decide (x ∉ seen ++ news))).length + news.length ≤
      (U.filter (fun x => decide (x ∉ seen))).length := by
  set A := U.filter (fun x => decide (x ∉ seen)) with hA
  have hAnd : A.Nodup := hU.filter _
  have hsplit : A.length =
      (A.filter (fun x => decide (x ∈ news))).length +
        (A.filter (fun x => !decide (x ∈ news))).length :=
    List.length_eq_length_filter_add _
  have hout : U.filter (fun x => decide (x ∉ seen ++ news)) =
      A.filter (fun x => !decide (x ∈ news)) := by
    rw [hA, List.filter_filter]
    apply List.filter_congr
    intro x _
    by_cases h1 : x ∈ seen <;> by_cases h2 : x ∈ news <;>
      simp [h1, h2, List.mem_append]
  have hsubA : news ⊆ A.filter (fun x => decide (x ∈ news)) := by
    intro x hx
    refine List.mem_filter.mpr ⟨?_, by simpa using hx⟩
    rw [hA]
    exact List.mem_filter.mpr ⟨(hsub x hx).1, by simpa using (hsub x hx).2⟩
  have hlen : news.length ≤ (A.filter (fun x => decide (x ∈ news))).length :=
    (List.subperm_of_subset hnd hsubA).length_le
  rw [hout]
  omega

/-- The while-loop of find_immediate_transitions: dequeue, process the
neighbors in the chosen direction, enqueue the fresh pass-through nodes,
repeat until the queue is empty; return the found set. -/
def bfs (adj : List (String × List String)) (ntype : String → NodeType)
    (terminal : NodeType) (q seen found : List String) : List String :=
  match q with
  | [] => found
  | cur :: rest =>
    let res := processNeighbors ntype terminal (adjGet adj cur) seen found []
    bfs adj ntype terminal (rest ++ res.2.2) res.1 res.2.1
termination_by
  ((allTargets adj).filter (fun x => decide (x ∉ seen))).length + q.length
decreasing_by
  obtain ⟨news, heq, hnd, hfresh, _⟩ :=
    pn_spec ntype terminal (adjGet adj cur) seen found []
  simp_wf
  simp only [heq, List.nil_append]
  have hbudget := @seen_budget (allTargets adj) seen news
    (List.nodup_dedup _) hnd
    (fun x hx => ⟨adjGet_subset_allTargets adj cur x (hfresh x hx).1,
      (hfresh x hx).2⟩)
  have hfl : (news.filter
      (fun x => !isTerm ntype terminal x && isPass ntype x)).length ≤
        news.length := List.length_filter_le _ _
  simp only [decide_not] at hbudget
  omega

/-- Model of find_immediate_transitions from SFC._build_relations: the
breadth-first search seeded with the start node, recording Transition
neighbors as terminal matches and passing through Branch and Leg nodes. -/
def find_immediate_transitions (adj : List (String × List String))
    (ntype : String → NodeType) (start : String) : List String :=
  bfs adj ntype .transition [start] [start] []

/-- Direction-aware form at SFC level: forward uses adj, else radj, as in
the Python call sites. -/
def SFC.findImmediate (sfc : SFC) (start : String) (forward : Bool) :
    List String :=
  find_immediate_transitions (if forward then sfc.adj else sfc.radj)
    (node_type sfc) start

/-! ## Path characterization of the traversal -/

/-- Pass-through node: kind Branch or Leg. -/
def passNode (ntype : String → NodeType) (n : String) : Prop :=
  ntype n = NodeType.branch ∨ ntype n = NodeType.leg

/-- Edge relation induced by an adjacency map. -/
def mapRel (adj : List (String × List String)) (x y : String) : Prop :=
  y ∈ adjGet adj x

/-- Nonempty paths from s whose interior nodes (the nodes strictly
between the endpoints) all satisfy the pass predicate. -/
inductive BLPath (E : String → String → Prop) (pass : String → Prop)
    (s : String) : String → Prop
  | head {t : String} : E s t → BLPath E pass s t
  | snoc {m t : String} : BLPath E pass s m → pass m → E m t → BLPath E pass s t

/-! ## The resolved relation lists of SFC._build_relations -/

/-- Sort key int(id) used on relation lists: value of the whole id text
parsed as an integer.  A non-numeric id raises in the source and the spec
treats it as assumed impossible; the total model defaults it to 0. -/
def intKey (s : String) : Int :=
  (pyIntString s).getD 0

/-- Numeric sort of id lists, stable like Python sorted. -/
def sortByIntKey (l : List String) : List String :=
  insSort (fun a b => decide (intKey a ≤ intKey b)) l

/-- Ids of the Transitions wired into a Step's outgoing list: the
traversal result sorted numerically (the iteration order of the wiring
loop over sorted(tr_ids)), filtered to registered Transitions, then
sorted again by the final deterministic-ordering pass. -/
def SFC.step_outgoing (sfc : SFC) (sid : String) : List String :=
  sortByIntKey ((sortByIntKey (sfc.findImmediate sid true)).filter
    (fun tid => (dictGet sfc.transitions tid).isSome))

/-- Ids of the Transitions wired into a Step's incoming list. -/
def SFC.step_incoming (sfc : SFC) (sid : String) : List String :=
  sortByIntKey ((sortByIntKey (sfc.findImmediate sid false)).filter
    (fun tid => (dictGet sfc.transitions tid).isSome))

/-- Ids of the Steps wired into a Transition's from_steps list: the
registered steps, in registry order, whose forward traversal found this
registered Transition; sorted by the final deterministic-ordering pass. -/
def SFC.transition_from_steps (sfc : SFC) (tid : String) : List String :=
  sortByIntKey ((sfc.steps.map Prod.fst).filter
    (fun sid => decide (tid ∈ sfc.findImmediate sid true) &&
      (dictGet sfc.transitions tid).isSome))

/-- Ids of the Steps wired into a Transition's to_steps list. -/
def SFC.transition_to_steps (sfc : SFC) (tid : String) : List String :=
  sortByIntKey ((sfc.steps.map Prod.fst).filter
    (fun sid => decide (tid ∈ sfc.findImmediate sid false) &&
      (dictGet sfc.transitions tid).isSome))

/-- Modelled from the spec: the contract of section 4.3 asks, for every
Transition as well, for its immediate neighbors of the opposite kind
(Steps), computed by the same breadth-first traversal with Step as the
terminal kind; the source never runs the traversal from a Transition, so
this direct per-Transition computation exists only in the spec. -/
def find_immediate_steps (adj : List (String × List String))
    (ntype : String → NodeType) (start : String) : List String :=
  bfs adj ntype .step [start] [start] []

/-! ## Structured-text extraction (Step.st and Transition.condition)

Modelled from the spec: the dom module defining CDATA_TAG is not among
the analyzed sources; the spec describes a Line as holding text or an
embedded literal-text block kept under a dedicated child tag, so the tag
name is an opaque constant here. -/

/-- Child tag under which a CDATA literal-text block is kept. -/
def CDATA_TAG : String := "CDATAContent"

/-- Text selected from one Line element: a truthy CDATA child text wins,
else the truthy direct text, else nothing. -/
def lineText (e : XmlElem) : Option String :=
  match (findFirst e CDATA_TAG).bind (fun cd => truthy cd.text) with
  | some t => some t
  | none => truthy e.text

/-- Non-empty whitespace-stripped text lines of the Line children of an
STContent element, in document order. -/
def stLines (stc : XmlElem) : List String :=
  (findall stc "Line").filterMap (fun le =>
    match lineText le with
    | some t => truthy (pyStrip t)
    | none => none)

/-- Model of the Step.st property: lines collected from every Action
child through Body and STContent, skipping absent parts. -/
def Step.st (el : XmlElem) : List String :=
  ((findall el "Action").map (fun action =>
    match findFirst action "Body" with
    | none => []
    | some body =>
        match findFirst body "STContent" with
        | none => []
        | some stc => stLines stc)).flatten

/-- Model of the Transition.condition property: none when the Condition
child or its STContent child is absent, else the collected lines. -/
def Transition.condition (el : XmlElem) : Option (List String) :=
  match findFirst el "Condition" with
  | none => none
  | some c =>
      match findFirst c "STContent" with
      | none => none
      | some stc => some (stLines stc)

/-! ## The operand index -/

/-- Model of Step.int_operand and Transition.int_operand: the first
contiguous run of decimal digits anywhere in the Operand attribute,
parsed as an integer; none when the attribute is missing or has no
digits. -/
def int_operand (el : XmlElem) : Option Int :=
  match attribGet el "Operand" with
  | none => none
  | some op => (firstDigitRun op.data).map (fun ds => (parseDigits ds : Int))

/-- Model of SFC.get_step_by_operand for an integer argument: linear
scan of the step registry in insertion order, first match wins. -/
def SFC.get_step_by_operand (sfc : SFC) (n : Int) : Option XmlElem :=
  (sfc.steps.find? (fun p => decide (int_operand p.2 = some n))).map Prod.snd

/-- Model of SFC.get_transition_by_operand for an integer argument. -/
def SFC.get_transition_by_operand (sfc : SFC) (n : Int) : Option XmlElem :=
  (sfc.transitions.find? (fun p => decide (int_operand p.2 = some n))).map
    Prod.snd

/-! ## The preset loader -/

/-- Model of the body of SFC._load_step_presets for one Step: find the
tag whose Name equals the operand, its PRE value member, parse the Value
as an integer; any missing piece or parse failure leaves the preset
absent, raising nothing. -/
def load_step_preset (program_tags : XmlElem) (stepEl : XmlElem) :
    Option Int :=
  match attribGet stepEl "Operand" with
  | none => none
  | some operand =>
      match findDescWithAttr program_tags "Tag" "Name" operand with
      | none => none
      | some tagEl =>
          match findDescWithAttr tagEl "DataValueMember" "Name" "PRE" with
          | none => none
          | some pre =>
              match attribGet pre "Value" with
              | none => none
              | some v => pyIntString v

/-! ## Action grouping -/

/-- Sort key of steps within an action group: the id parsed as an
integer when the id is truthy and all digits, else positive infinity
(modelled as none ordered last). -/
def stepActionKey (sid : String) : Option Nat :=
  if sid ≠ "" ∧ sid.data.all Char.isDigit then some (parseDigits sid.data)
  else none

/-- Order on the within-group sort keys: numeric keys ascending,
infinity after every numeric key. -/
def stepActionKeyLe (a b : String) : Bool :=
  match stepActionKey a, stepActionKey b with
  | some m, some n => decide (m ≤ n)
  | some _, none => true
  | none, some _ => false
  | none, none => true

/-- The (action text, member step ids) pairs contributed by the step
registry, in registry order: the id of every step with non-empty action
text, keyed by the newline-joined text. -/
def actionPairs (entries : List (String × XmlElem)) :
    List (String × String) :=
  entries.filterMap (fun p =>
    if (Step.st p.2).isEmpty then none
    else some (String.intercalate "\n" (Step.st p.2), p.1))

/-- Model of the grouping loop of the SFC.actions property: steps with
empty action text are skipped, others are appended to the group of their
joined text, groups appearing in first-contribution order. -/
def SFC.action_map (sfc : SFC) : List (String × List String) :=
  sfc.steps.foldl
    (fun m p =>
      if (Step.st p.2).isEmpty then m
      else adjAppend m (String.intercalate "\n" (Step.st p.2)) p.1) []

/-- Model of the SFC.actions property: group steps by joined action
text, sort each group by numeric id with non-numeric ids last, sort the
groups by their text. -/
def SFC.actions (sfc : SFC) : List (String × List String) :=
  insSort (fun g1 g2 => decide (g1.1 ≤ g2.1))
    ((sfc.action_map).map (fun g => (g.1, insSort stepActionKeyLe g.2)))

/-- Lookup with the operand given as a string, as Python receives it:
int() of a non-numeric string raises inside the first loop iteration
(modelled as an error), while an empty registry returns absent before
the string is ever parsed. -/
def SFC.get_step_by_operand_str (sfc : SFC) (s : String) :
    Except Unit (Option XmlElem) :=
  match sfc.steps with
  | [] => .ok none
  | _ :: _ =>
      match pyIntString s with
      | none => .error ()
      | some n => .ok (sfc.get_step_by_operand n)

/-! ## Concrete charts instantiating the theorems -/

/-- Line element of the scenario Transition condition. -/
def exLine : XmlElem := XmlElem.mk "Line" [("Number", "0")] (some "Step_003.DN") []

/-- STContent element of the scenario Transition condition. -/
def exStc : XmlElem := XmlElem.mk "STContent" [] none [exLine]

/-- Condition element of the scenario Transition. -/
def exCondEl : XmlElem := XmlElem.mk "Condition" [] none [exStc]

/-- Scenario Transition 39 with operand Tran_000 and a one-line condition. -/
def exTr39 : XmlElem :=
  XmlElem.mk "Transition" [("ID", "39"), ("Operand", "Tran_000")] none [exCondEl]

/-- Scenario Step 2 with operand Step_001 and a one-line action body. -/
def exStep2 : XmlElem :=
  XmlElem.mk "Step" [("ID", "2"), ("Operand", "Step_001")] none
    [XmlElem.mk "Action" [("ID", "3")] none
      [XmlElem.mk "Body" [] none
        [XmlElem.mk "STContent" [] none
          [XmlElem.mk "Line" [("Number", "0")] (some " B:=0; ") []]]]]

/-- Scenario chart of the spec: Step 0 to Transition 39 to Step 2 to
Transition 40, linked by DirectedLinks. -/
def exChart : XmlElem :=
  XmlElem.mk "SFCContent" [] none [
    XmlElem.mk "Step" [("ID", "0"), ("Operand", "Step_000"),
      ("InitialStep", "true")] none [],
    exStep2,
    exTr39,
    XmlElem.mk "Transition" [("ID", "40"), ("Operand", "Tran_001")] none [],
    XmlElem.mk "DirectedLink" [("FromID", "0"), ("ToID", "39")] none [],
    XmlElem.mk "DirectedLink" [("FromID", "39"), ("ToID", "2")] none [],
    XmlElem.mk "DirectedLink" [("FromID", "2"), ("ToID", "40")] none []]

/-- The parsed scenario chart. -/
def exSFC : SFC := SFC.ofElement exChart

/-- Chart with two Transitions whose distinct ids 1 and 01 share the
numeric value 1, both directly linked from Step 0. -/
def dupChart : XmlElem :=
  XmlElem.mk "SFCContent" [] none [
    XmlElem.mk "Step" [("ID", "0"), ("Operand", "Step_000")] none [],
    XmlElem.mk "Transition" [("ID", "1"), ("Operand", "Tran_001")] none [],
    XmlElem.mk "Transition" [("ID", "01"), ("Operand", "Tran_001")] none [],
    XmlElem.mk "DirectedLink" [("FromID", "0"), ("ToID", "1")] none [],
    XmlElem.mk "DirectedLink" [("FromID", "0"), ("ToID", "01")] none []]

/-- The parsed duplicate-numeric-id chart. -/
def dupSFC : SFC := SFC.ofElement dupChart

/-- DataValueMember holding the preset of the spec preset scenario. -/
def exDVM : XmlElem :=
  XmlElem.mk "DataValueMember"
    [("Name", "PRE"), ("DataType", "DINT"), ("Value", "500")] none []

/-- Structure element of the preset scenario tag. -/
def exStruct : XmlElem :=
  XmlElem.mk "Structure" [("DataType", "SFC_STEP")] none [exDVM]

/-- Data element of the preset scenario tag. -/
def exData : XmlElem :=
  XmlElem.mk "Data" [("Format", "Decorated")] none [exStruct]

/-- Tag named Step_004 of the preset scenario. -/
def exTag : XmlElem :=
  XmlElem.mk "Tag" [("Name", "Step_004"), ("TagType", "Base")] none [exData]

/-- Program tags container of the preset scenario. -/
def exTags : XmlElem := XmlElem.mk "Tags" [] none [exTag]

/-- Step with operand Step_004 of the preset scenario. -/
def exStep4 : XmlElem :=
  XmlElem.mk "Step" [("ID", "4"), ("Operand", "Step_004")] none []

theorem perm_insLe {α : Type} (le : α → α → Bool) (x : α) (l : List α) :
    (insLe le x l).Perm (x :: l) := by
  induction l with
  | nil => simp [insLe]
  | cons y ys ih =>
      simp only [insLe]
      by_cases h : le x y = true
      · rw [if_pos h]
      · rw [if_neg h]
        exact ((ih.cons y).trans (List.Perm.swap x y ys))

theorem perm_insSort {α : Type} (le : α → α → Bool) (l : List α) :
    (insSort le l).Perm l := by
  induction l with
  | nil => simp [insSort]
  | cons x xs ih =>
      exact (perm_insLe le x (insSort le xs)).trans (ih.cons x)

theorem mem_insSort {α : Type} (le : α → α → Bool) (l : List α) (a : α) :
    a ∈ insSort le l ↔ a ∈ l :=
  (perm_insSort le l).mem_iff

theorem nodup_insSort {α : Type} (le : α → α → Bool) (l : List α) (h : l.Nodup) :
    (insSort le l).Nodup :=
  (perm_insSort le l).nodup_iff.mpr h

theorem pairwise_insLe {α : Type} (le : α → α → Bool)
    (htot : ∀ a b, le a b = true ∨ le b a = true)
    (htr : ∀ a b c, le a b = true → le b c = true → le a c = true)
    (x : α) (l : List α) (h : l.Pairwise (fun a b => le a b = true)) :
    (insLe le x l).Pairwise (fun a b => le a b = true) := by
  induction l with
  | nil => simp [insLe]
  | cons y ys ih =>
      rcases List.pairwise_cons.mp h with ⟨hy, hys⟩
      simp only [insLe]
      by_cases hxy : le x y = true
      · rw [if_pos hxy]
        refine List.pairwise_cons.mpr ⟨?_, h⟩
        intro b hb
        rcases List.mem_cons.mp hb with rfl | hb
        · exact hxy
        · exact htr _ _ _ hxy (hy _ hb)
      · rw [if_neg hxy]
        refine List.pairwise_cons.mpr ⟨?_, ih hys⟩
        intro b hb
        rcases List.mem_cons.mp ((perm_insLe le x ys).mem_iff.mp hb) with rfl | hb
        · rcases htot b y with h1 | h1
          · exact absurd h1 hxy
          · exact h1
        · exact hy _ hb

theorem pairwise_insSort {α : Type} (le : α → α → Bool)
    (htot : ∀ a b, le a b = true ∨ le b a = true)
    (htr : ∀ a b c, le a b = true → le b c = true → le a c = true)
    (l : List α) :
    (insSort le l).Pairwise (fun a b => le a b = true) := by
  induction l with
  | nil => simp [insSort]
  | cons x xs ih => exact pairwise_insLe le htot htr x (insSort le xs) ih

/-- Defining equation of the descendant scan: an element's descendants
are, for each child in order, the child followed by its own descendants. -/
theorem descendants_eq (e : XmlElem) :
    descendants e = (e.children.map (fun c => c :: descendants c)).flatten := by
  rw [descendants]
  congr 1
  exact List.attach_map_coe e.children (fun x => x :: descendants x)

/-- Soundness of the traversal: everything it returns is a terminal node
reachable along a pass-through-interior path. -/
theorem bfs_sound (adj : List (String × List String)) (ntype : String → NodeType)
    (terminal : NodeType) (start : String) :
    ∀ q seen found,
      (∀ n ∈ q, n = start ∨
        (passNode ntype n ∧ BLPath (mapRel adj) (passNode ntype) start n)) →
      (∀ f ∈ found, ntype f = terminal ∧
        BLPath (mapRel adj) (passNode ntype) start f) →
      ∀ t ∈ bfs adj ntype terminal q seen found,
        ntype t = terminal ∧ BLPath (mapRel adj) (passNode ntype) start t := by
  intro q seen found
  induction q, seen, found using bfs.induct adj ntype terminal with
  | case1 seen found =>
      intro _ hf t ht
      exact hf t (by simpa [bfs] using ht)
  | case2 seen found cur rest res ih =>
      intro hq hf t ht
      obtain ⟨news, heq, _, hfresh, _⟩ :=
        pn_spec ntype terminal (adjGet adj cur) seen found []
      have hres : res = (seen ++ news,
          found ++ news.filter (isTerm ntype terminal),
          [] ++ news.filter (fun x => !isTerm ntype terminal x && isPass ntype x)) :=
        heq
      have hcur := hq cur (List.mem_cons_self _ _)
      have hreach : ∀ x ∈ adjGet adj cur,
          BLPath (mapRel adj) (passNode ntype) start x := by
        intro x hx
        rcases hcur with rfl | ⟨hpass, hp⟩
        · exact BLPath.head hx
        · exact BLPath.snoc hp hpass hx
      rw [show bfs adj ntype terminal (cur :: rest) seen found =
            bfs adj ntype terminal (rest ++ res.2.2) res.1 res.2.1 by
          simp [bfs]] at ht
      refine ih ?_ ?_ t ht
      · simp only [hres, List.nil_append]
        intro n hn
        rcases List.mem_append.mp hn with hn | hn
        · exact hq n (List.mem_cons_of_mem _ hn)
        · have hmem := List.mem_filter.mp hn
          have hn2 := (hfresh n hmem.1).1
          have hp : passNode ntype n := by
            have := hmem.2
            simp only [Bool.and_eq_true, isPass, Bool.or_eq_true,
              decide_eq_true_eq] at this
            exact this.2
          exact Or.inr ⟨hp, hreach n hn2⟩
      · simp only [hres]
        intro f hfm
        rcases List.mem_append.mp hfm with hfm | hfm
        · exact hf f hfm
        · have hmem := List.mem_filter.mp hfm
          have hterm : ntype f = terminal := by
            have := hmem.2
            simp only [isTerm, decide_eq_true_eq] at this
            exact this
          exact ⟨hterm, hreach f (hfresh f hmem.1).1⟩

/-- When every pass-through or start node of seen has all its neighbors
in seen, every endpoint of a pass-through-interior path from start lies
in seen. -/
theorem reach_mem_of_closed (adj : List (String × List String))
    (ntype : String → NodeType) (start : String) (seen : List String)
    (hstart : start ∈ seen)
    (hclosed : ∀ n ∈ seen, (passNode ntype n ∨ n = start) →
      ∀ y ∈ adjGet adj n, y ∈ seen) :
    ∀ t, BLPath (mapRel adj) (passNode ntype) start t → t ∈ seen := by
  intro t hp
  induction hp with
  | head h => exact hclosed start hstart (Or.inr rfl) _ h
  | snoc hp hpass he ih => exact hclosed _ ih (Or.inl hpass) _ he

/-- Completeness of the traversal: every terminal node reachable along a
pass-through-interior path is returned, provided the invariants hold of
the state (they hold of the initial state). -/
theorem bfs_complete (adj : List (String × List String))
    (ntype : String → NodeType) (terminal : NodeType) (start : String)
    (hterm1 : terminal ≠ NodeType.branch) (hterm2 : terminal ≠ NodeType.leg) :
    ∀ q seen found,
      start ∈ seen →
      (∀ n ∈ seen, (passNode ntype n ∨ n = start) →
        n ∈ q ∨ ∀ y ∈ adjGet adj n, y ∈ seen) →
      (∀ n ∈ seen, ntype n = terminal → n ∈ found ∨ n = start) →
      ∀ t, ntype t = terminal → t ≠ start →
        BLPath (mapRel adj) (passNode ntype) start t →
        t ∈ bfs adj ntype terminal q seen found := by
  intro q seen found
  induction q, seen, found using bfs.induct adj ntype terminal with
  | case1 seen found =>
      intro hstart hclosed hfound t htype htne hpath
      have hclosed2 : ∀ n ∈ seen, (passNode ntype n ∨ n = start) →
          ∀ y ∈ adjGet adj n, y ∈ seen := by
        intro n hn hp
        rcases hclosed n hn hp with h | h
        · exact absurd h (List.not_mem_nil n)
        · exact h
      have ht : t ∈ seen :=
        reach_mem_of_closed adj ntype start seen hstart hclosed2 t hpath
      rcases hfound t ht htype with h | h
      · simpa [bfs] using h
      · exact absurd h htne
  | case2 seen found cur rest res ih =>
      intro hstart hclosed hfound t htype htne hpath
      obtain ⟨news, heq, hnd, hfresh, hcov⟩ :=
        pn_spec ntype terminal (adjGet adj cur) seen found []
      have hres : res = (seen ++ news,
          found ++ news.filter (isTerm ntype terminal),
          [] ++ news.filter (fun x => !isTerm ntype terminal x && isPass ntype x)) :=
        heq
      rw [show bfs adj ntype terminal (cur :: rest) seen found =
            bfs adj ntype terminal (rest ++ res.2.2) res.1 res.2.1 by
          simp [bfs]]
      refine ih ?_ ?_ ?_ t htype htne hpath
      · simp only [hres]
        exact List.mem_append_left _ hstart
      · simp only [hres, List.nil_append]
        intro n hn hp
        rcases List.mem_append.mp hn with hn | hn
        · rcases hclosed n hn hp with hq | hcl
          · rcases List.mem_cons.mp hq with rfl | hq2
            · refine Or.inr ?_
              intro y hy
              rcases hcov y hy with h | h
              · exact List.mem_append_left _ h
              · exact List.mem_append_right _ h
            · exact Or.inl (List.mem_append_left _ hq2)
          · exact Or.inr fun y hy => List.mem_append_left _ (hcl y hy)
        · rcases hp with hpass | rfl
          · refine Or.inl (List.mem_append_right _ ?_)
            refine List.mem_filter.mpr ⟨hn, ?_⟩
            have hnt : ntype n ≠ terminal := by
              rcases hpass with h | h
              · rw [h]; exact fun hc => hterm1 hc.symm
              · rw [h]; exact fun hc => hterm2 hc.symm
            have hip : isPass ntype n = true := by
              rcases hpass with h | h <;> simp [isPass, h]
            simp [isTerm, hnt, hip]
          · exact absurd hstart (hfresh n hn).2
      · simp only [hres, List.nil_append]
        intro n hn hnt
        rcases List.mem_append.mp hn with hn | hn
        · rcases hfound n hn hnt with h | h
          · exact Or.inl (List.mem_append_left _ h)
          · exact Or.inr h
        · refine Or.inl (List.mem_append_right _ ?_)
          exact List.mem_filter.mpr ⟨hn, by simp [isTerm, hnt]⟩

/-- Exact characterization of the traversal from its initial state: the
result is the set of terminal nodes reachable from the start along a
path whose interior is all pass-through nodes. -/
theorem bfs_run_iff (adj : List (String × List String))
    (ntype : String → NodeType) (terminal : NodeType) (start : String)
    (hterm1 : terminal ≠ NodeType.branch) (hterm2 : terminal ≠ NodeType.leg)
    (hstart : ntype start ≠ terminal) (t : String) :
    t ∈ bfs adj ntype terminal [start] [start] [] ↔
      ntype t = terminal ∧ BLPath (mapRel adj) (passNode ntype) start t := by
  constructor
  · intro ht
    refine bfs_sound adj ntype terminal start [start] [start] [] ?_ ?_ t ht
    · intro n hn
      exact Or.inl (List.mem_singleton.mp hn)
    · intro f hf
      exact absurd hf (List.not_mem_nil f)
  · rintro ⟨htype, hpath⟩
    refine bfs_complete adj ntype terminal start hterm1 hterm2
      [start] [start] [] (List.mem_singleton_self start) ?_ ?_ t htype ?_ hpath
    · intro n hn _
      exact Or.inl hn
    · intro n hn _
      exact Or.inr (List.mem_singleton.mp hn)
    · intro hc
      rw [hc] at htype
      exact hstart htype

/-! ## Characterizing the collected adjacency by its edge list -/

theorem adjGet_adjAppend (m : List (String × List String)) (k v x : String) :
    adjGet (adjAppend m k v) x =
      if x = k then adjGet m x ++ [v] else adjGet m x := by
  have hcomp : ((fun p : String × List String => decide (p.1 = x)) ∘
      (fun p : String × List String => if p.1 = k then (p.1, p.2 ++ [v]) else p)) =
      (fun p : String × List String => decide (p.1 = x)) := by
    funext q
    by_cases hq : q.1 = k <;> simp [hq]
  unfold adjAppend adjGet
  cases hfind : m.find? (fun p => p.1 = k) with
  | none =>
      simp only [hfind, Option.isSome_none, Bool.false_eq_true, if_false]
      rw [List.find?_append]
      by_cases hx : x = k
      · have hnone : m.find? (fun p : String × List String => decide (p.1 = x)) =
            none := by rw [hx]; exact hfind
        have hone : List.find? (fun p : String × List String => decide (p.1 = x))
            [(k, [v])] = some (k, [v]) := by
          simp [List.find?, hx.symm]
        simp [hnone, hone, hx, hfind]
      · have hone : List.find? (fun p : String × List String => decide (p.1 = x))
            [(k, [v])] = none := by
          have hkx : (decide (k = x)) = false :=
            decide_eq_false fun h => hx h.symm
          simp [List.find?, hkx]
        cases hfx : m.find? (fun p : String × List String => decide (p.1 = x)) with
        | none => simp [hfx, hone, hx]
        | some r => simp [hfx, hone, hx]
  | some p =>
      have hpk : p.1 = k := by simpa using List.find?_some hfind
      simp only [hfind, Option.isSome_some, if_true]
      rw [List.find?_map, hcomp]
      by_cases hx : x = k
      · subst hx
        rw [hfind]
        simp [hpk]
      · cases hfx : m.find? (fun p : String × List String => decide (p.1 = x)) with
        | none => simp [hfx, hx]
        | some r =>
            have hrx : r.1 = x := by simpa using List.find?_some hfx
            have hrk : ¬(r.1 = k) := by rw [hrx]; exact hx
            simp [hfx, hx, hrk]

theorem adjGet_buildMap_aux (es : List (String × String)) :
    ∀ m x, adjGet (es.foldl (fun m e => adjAppend m e.1 e.2) m) x =
      adjGet m x ++ (es.filter (fun e => decide (e.1 = x))).map Prod.snd := by
  induction es with
  | nil => intro m x; simp
  | cons e rest ih =>
      intro m x
      simp only [List.foldl_cons]
      rw [ih, adjGet_adjAppend]
      by_cases hx : x = e.1
      · have h1 : e.1 = x := hx.symm
        rw [if_pos hx, List.filter_cons, if_pos (by simp [h1])]
        simp [List.append_assoc]
      · have h2 : ¬(e.1 = x) := fun h => hx h.symm
        rw [if_neg hx, List.filter_cons, if_neg (by simpa using h2)]

/-- Membership in the folded adjacency is exactly membership in the edge
list. -/
theorem mem_adjGet_buildMap (es : List (String × String)) (x y : String) :
    y ∈ adjGet (buildMap es) x ↔ (x, y) ∈ es := by
  unfold buildMap
  rw [adjGet_buildMap_aux]
  simp only [adjGet, List.find?_nil, Option.map_none', Option.getD_none,
    List.nil_append]
  constructor
  · intro hy
    obtain ⟨e, he, hey⟩ := List.mem_map.mp hy
    obtain ⟨hes, hex⟩ := List.mem_filter.mp he
    have hex2 : e.1 = x := by simpa using hex
    have hexy : e = (x, y) := Prod.ext hex2 hey
    rw [← hexy]
    exact hes
  · intro hxy
    exact List.mem_map.mpr ⟨(x, y), List.mem_filter.mpr ⟨hxy, by simp⟩, rfl⟩

/-- The forward adjacency realizes exactly the collected edge list. -/
theorem mem_adj_iff (sfc : SFC) (x y : String) :
    mapRel sfc.adj x y ↔ (x, y) ∈ sfc.edges :=
  mem_adjGet_buildMap sfc.edges x y

/-- The reverse adjacency realizes exactly the swapped edge list. -/
theorem mem_radj_iff (sfc : SFC) (x y : String) :
    mapRel sfc.radj x y ↔ (y, x) ∈ sfc.edges := by
  unfold SFC.radj mapRel
  rw [mem_adjGet_buildMap]
  constructor
  · intro h
    obtain ⟨e, he, hee⟩ := List.mem_map.mp h
    have h1 : e.2 = x := congrArg Prod.fst hee
    have h2 : e.1 = y := congrArg Prod.snd hee
    have : e = (y, x) := Prod.ext h2 h1
    rwa [this] at he
  · intro h
    exact List.mem_map.mpr ⟨(y, x), h, rfl⟩

/-! ## Path reversal -/

theorem BLPath_congr {E F : String → String → Prop} {pass : String → Prop}
    {s t : String} (h : ∀ x y, E x y ↔ F x y)
    (hp : BLPath E pass s t) : BLPath F pass s t := by
  induction hp with
  | head he => exact BLPath.head ((h _ _).mp he)
  | snoc _ hpass he ih => exact BLPath.snoc ih hpass ((h _ _).mp he)

theorem BLPath_trans {E : String → String → Prop} {pass : String → Prop}
    {a b c : String} (h1 : BLPath E pass a b) (hb : pass b)
    (h2 : BLPath E pass b c) : BLPath E pass a c := by
  induction h2 with
  | head he => exact BLPath.snoc h1 hb he
  | snoc _ hpass he ih => exact BLPath.snoc ih hpass he

theorem BLPath_flip {E : String → String → Prop} {pass : String → Prop}
    {s t : String} (hp : BLPath E pass s t) :
    BLPath (fun x y => E y x) pass t s := by
  induction hp with
  | head he => exact BLPath.head he
  | snoc _ hpass he ih =>
      exact BLPath_trans (BLPath.head he) hpass ih

theorem mem_step_outgoing (sfc : SFC) (sid t : String) :
    t ∈ sfc.step_outgoing sid ↔
      t ∈ sfc.findImmediate sid true ∧
        (dictGet sfc.transitions t).isSome = true := by
  unfold SFC.step_outgoing sortByIntKey
  rw [mem_insSort, List.mem_filter, mem_insSort]

theorem mem_step_incoming (sfc : SFC) (sid t : String) :
    t ∈ sfc.step_incoming sid ↔
      t ∈ sfc.findImmediate sid false ∧
        (dictGet sfc.transitions t).isSome = true := by
  unfold SFC.step_incoming sortByIntKey
  rw [mem_insSort, List.mem_filter, mem_insSort]

theorem mem_transition_from_steps (sfc : SFC) (tid s : String) :
    s ∈ sfc.transition_from_steps tid ↔
      s ∈ sfc.steps.map Prod.fst ∧ tid ∈ sfc.findImmediate s true ∧
        (dictGet sfc.transitions tid).isSome = true := by
  unfold SFC.transition_from_steps sortByIntKey
  rw [mem_insSort, List.mem_filter]
  simp [and_assoc]

theorem mem_transition_to_steps (sfc : SFC) (tid s : String) :
    s ∈ sfc.transition_to_steps tid ↔
      s ∈ sfc.steps.map Prod.fst ∧ tid ∈ sfc.findImmediate s false ∧
        (dictGet sfc.transitions tid).isSome = true := by
  unfold SFC.transition_to_steps sortByIntKey
  rw [mem_insSort, List.mem_filter]
  simp [and_assoc]

/-! ## Node kinds and registries -/

theorem dictGet_isSome_iff_mem_keys {α : Type} (d : List (String × α))
    (k : String) : (dictGet d k).isSome = true ↔ k ∈ d.map Prod.fst := by
  unfold dictGet
  cases hfind : d.find? (fun p => p.1 = k) with
  | none =>
      simp only [Option.map_none', Option.isSome_none]
      constructor
      · intro h; cases h
      · intro hk
        obtain ⟨p, hp, hpk⟩ := List.mem_map.mp hk
        have := List.find?_eq_none.mp hfind p hp
        simp [hpk] at this
  | some p =>
      have hpk : p.1 = k := by simpa using List.find?_some hfind
      have hp : p ∈ d := List.mem_of_find?_eq_some hfind
      simp only [Option.map_some', Option.isSome_some]
      constructor
      · intro _
        exact List.mem_map.mpr ⟨p, hp, hpk⟩
      · intro _
        trivial

theorem node_type_step_iff (sfc : SFC) (n : String) :
    node_type sfc n = NodeType.step ↔ (dictGet sfc.steps n).isSome = true := by
  unfold node_type
  by_cases h1 : (dictGet sfc.steps n).isSome <;>
    by_cases h2 : (dictGet sfc.transitions n).isSome <;>
      by_cases h3 : (dictGet sfc.branches n).isSome <;>
        by_cases h4 : (dictGet sfc.legToBranch n).isSome <;>
          simp [h1, h2, h3, h4]

theorem node_type_transition_iff (sfc : SFC) (n : String) :
    node_type sfc n = NodeType.transition ↔
      (dictGet sfc.steps n).isSome = false ∧
        (dictGet sfc.transitions n).isSome = true := by
  unfold node_type
  by_cases h1 : (dictGet sfc.steps n).isSome <;>
    by_cases h2 : (dictGet sfc.transitions n).isSome <;>
      by_cases h3 : (dictGet sfc.branches n).isSome <;>
        by_cases h4 : (dictGet sfc.legToBranch n).isSome <;>
          simp [h1, h2, h3, h4]

/-- Membership characterization of the direction-aware traversal from a
non-Transition start node. -/
theorem findImmediate_iff (sfc : SFC) (s : String) (fwd : Bool)
    (hs : node_type sfc s ≠ NodeType.transition) (t : String) :
    t ∈ sfc.findImmediate s fwd ↔
      node_type sfc t = NodeType.transition ∧
        BLPath (mapRel (if fwd then sfc.adj else sfc.radj))
          (passNode (node_type sfc)) s t := by
  unfold SFC.findImmediate find_immediate_transitions
  exact bfs_run_iff _ _ _ s (by simp) (by simp) hs t

/-- Forward traversal results are reachable along the collected edges. -/
theorem findImmediate_fwd_iff (sfc : SFC) (s : String)
    (hs : node_type sfc s ≠ NodeType.transition) (t : String) :
    t ∈ sfc.findImmediate s true ↔
      node_type sfc t = NodeType.transition ∧
        BLPath (fun x y => (x, y) ∈ sfc.edges) (passNode (node_type sfc)) s t := by
  rw [findImmediate_iff sfc s true hs t]
  constructor
  · rintro ⟨h1, h2⟩
    exact ⟨h1, BLPath_congr (fun x y => by simpa using mem_adj_iff sfc x y) h2⟩
  · rintro ⟨h1, h2⟩
    refine ⟨h1, BLPath_congr (fun x y => ?_) h2⟩
    simpa using (mem_adj_iff sfc x y).symm

/-- Reverse traversal results are reachable along the reversed edges. -/
theorem findImmediate_rev_iff (sfc : SFC) (s : String)
    (hs : node_type sfc s ≠ NodeType.transition) (t : String) :
    t ∈ sfc.findImmediate s false ↔
      node_type sfc t = NodeType.transition ∧
        BLPath (fun x y => (y, x) ∈ sfc.edges) (passNode (node_type sfc)) s t := by
  rw [findImmediate_iff sfc s false hs t]
  constructor
  · rintro ⟨h1, h2⟩
    exact ⟨h1, BLPath_congr (fun x y => by simpa using mem_radj_iff sfc x y) h2⟩
  · rintro ⟨h1, h2⟩
    refine ⟨h1, BLPath_congr (fun x y => ?_) h2⟩
    simpa using (mem_radj_iff sfc x y).symm

/-- C1: for every Step s, the resolved outgoing set of s contains exactly
the Transitions t with a forward path from s to t in the combined
adjacency (explicit DirectedLinks plus branch or leg structural edges)
whose interior nodes are all of kind Branch or Leg; a Transition neighbor
is a terminal match never expanded further, Branch and Leg neighbors are
passed through, and a Step neighbor is never enqueued nor recorded, so no
Step is ever exposed as reachable through another Step; symmetrically the
incoming set uses the reverse adjacency. -/
theorem C1_resolved_sets_are_pass_through_paths (sfc : SFC) (s t : String)
    (hs : node_type sfc s = NodeType.step) :
    (t ∈ sfc.step_outgoing s ↔
      node_type sfc t = NodeType.transition ∧
        BLPath (fun x y => (x, y) ∈ sfc.edges) (passNode (node_type sfc)) s t) ∧
    (t ∈ sfc.step_incoming s ↔
      node_type sfc t = NodeType.transition ∧
        BLPath (fun x y => (y, x) ∈ sfc.edges) (passNode (node_type sfc)) s t) := by
  have hs2 : node_type sfc s ≠ NodeType.transition := by
    rw [hs]; intro hc; cases hc
  constructor
  · rw [mem_step_outgoing, findImmediate_fwd_iff sfc s hs2 t]
    constructor
    · rintro ⟨h1, _⟩
      exact h1
    · intro h1
      exact ⟨h1, ((node_type_transition_iff sfc t).mp h1.1).2⟩
  · rw [mem_step_incoming, findImmediate_rev_iff sfc s hs2 t]
    constructor
    · rintro ⟨h1, _⟩
      exact h1
    · intro h1
      exact ⟨h1, ((node_type_transition_iff sfc t).mp h1.1).2⟩

/-- C2: the per-Transition relations are fully produced by the Step-side
computation alone: a Transition's from_steps contains exactly the Steps
whose direct backward immediate-Step search from the Transition would
find them, and to_steps matches the forward search, so wiring both
directions from the Step side yields the same relation as computing each
Transition's immediate opposite-kind neighbors directly. -/
theorem C2_step_side_wiring_equals_direct_transition_search (sfc : SFC)
    (tid : String) (ht : node_type sfc tid = NodeType.transition) (s : String) :
    (s ∈ sfc.transition_from_steps tid ↔
      s ∈ find_immediate_steps sfc.radj (node_type sfc) tid) ∧
    (s ∈ sfc.transition_to_steps tid ↔
      s ∈ find_immediate_steps sfc.adj (node_type sfc) tid) := by
  have ht2 : node_type sfc tid ≠ NodeType.step := by
    rw [ht]; intro hc; cases hc
  have hreg : (dictGet sfc.transitions tid).isSome = true :=
    ((node_type_transition_iff sfc tid).mp ht).2
  constructor
  · rw [mem_transition_from_steps]
    unfold find_immediate_steps
    rw [bfs_run_iff sfc.radj (node_type sfc) NodeType.step tid
      (by simp) (by simp) ht2 s]
    constructor
    · rintro ⟨hmem, hfound, _⟩
      have hstype : node_type sfc s = NodeType.step :=
        (node_type_step_iff sfc s).mpr ((dictGet_isSome_iff_mem_keys _ s).mpr hmem)
      have hstr : node_type sfc s ≠ NodeType.transition := by
        rw [hstype]; intro hc; cases hc
      have hpath := ((findImmediate_fwd_iff sfc s hstr tid).mp hfound).2
      refine ⟨hstype, ?_⟩
      have hflip := BLPath_flip hpath
      refine BLPath_congr (fun x y => ?_) hflip
      simpa using (mem_radj_iff sfc x y).symm
    · rintro ⟨hstype, hpath⟩
      have hstr : node_type sfc s ≠ NodeType.transition := by
        rw [hstype]; intro hc; cases hc
      have hmem : s ∈ sfc.steps.map Prod.fst :=
        (dictGet_isSome_iff_mem_keys _ s).mp ((node_type_step_iff sfc s).mp hstype)
      refine ⟨hmem, ?_, hreg⟩
      rw [findImmediate_fwd_iff sfc s hstr tid]
      refine ⟨ht, ?_⟩
      have hpath2 : BLPath (fun x y => (y, x) ∈ sfc.edges)
          (passNode (node_type sfc)) tid s :=
        BLPath_congr (fun x y => by simpa using mem_radj_iff sfc x y) hpath
      exact BLPath_flip hpath2
  · rw [mem_transition_to_steps]
    unfold find_immediate_steps
    rw [bfs_run_iff sfc.adj (node_type sfc) NodeType.step tid
      (by simp) (by simp) ht2 s]
    constructor
    · rintro ⟨hmem, hfound, _⟩
      have hstype : node_type sfc s = NodeType.step :=
        (node_type_step_iff sfc s).mpr ((dictGet_isSome_iff_mem_keys _ s).mpr hmem)
      have hstr : node_type sfc s ≠ NodeType.transition := by
        rw [hstype]; intro hc; cases hc
      have hpath := ((findImmediate_rev_iff sfc s hstr tid).mp hfound).2
      refine ⟨hstype, ?_⟩
      have hflip := BLPath_flip hpath
      refine BLPath_congr (fun x y => ?_) hflip
      simpa using (mem_adj_iff sfc x y).symm
    · rintro ⟨hstype, hpath⟩
      have hstr : node_type sfc s ≠ NodeType.transition := by
        rw [hstype]; intro hc; cases hc
      have hmem : s ∈ sfc.steps.map Prod.fst :=
        (dictGet_isSome_iff_mem_keys _ s).mp ((node_type_step_iff sfc s).mp hstype)
      refine ⟨hmem, ?_, hreg⟩
      rw [findImmediate_rev_iff sfc s hstr tid]
      refine ⟨ht, ?_⟩
      have hpath2 : BLPath (fun x y => (x, y) ∈ sfc.edges)
          (passNode (node_type sfc)) tid s :=
        BLPath_congr (fun x y => by simpa using mem_adj_iff sfc x y) hpath
      exact BLPath_flip hpath2

/-- C3: after graph construction bidirectionality holds everywhere — a
Transition t is in a Step s's resolved outgoing list iff s is in t's
from_steps list, and t is in s's incoming list iff s is in t's to_steps
list. -/
theorem C3_bidirectionality (sfc : SFC) (s t : String)
    (hs : s ∈ sfc.steps.map Prod.fst) :
    (t ∈ sfc.step_outgoing s ↔ s ∈ sfc.transition_from_steps t) ∧
    (t ∈ sfc.step_incoming s ↔ s ∈ sfc.transition_to_steps t) := by
  constructor
  · rw [mem_step_outgoing, mem_transition_from_steps]
    constructor
    · rintro ⟨h1, h2⟩
      exact ⟨hs, h1, h2⟩
    · rintro ⟨_, h1, h2⟩
      exact ⟨h1, h2⟩
  · rw [mem_step_incoming, mem_transition_to_steps]
    constructor
    · rintro ⟨h1, h2⟩
      exact ⟨hs, h1, h2⟩
    · rintro ⟨_, h1, h2⟩
      exact ⟨h1, h2⟩

/-! ## Ordering and freedom from duplicates of the relation lists -/

theorem bfs_found_nodup (adj : List (String × List String))
    (ntype : String → NodeType) (terminal : NodeType) :
    ∀ q seen found, found.Nodup → (∀ f ∈ found, f ∈ seen) →
      (bfs adj ntype terminal q seen found).Nodup := by
  intro q seen found
  induction q, seen, found using bfs.induct adj ntype terminal with
  | case1 seen found =>
      intro h _
      simpa [bfs] using h
  | case2 seen found cur rest res ih =>
      intro hnd hsub
      obtain ⟨news, heq, hndnews, hfresh, _⟩ :=
        pn_spec ntype terminal (adjGet adj cur) seen found []
      have hres : res = (seen ++ news,
          found ++ news.filter (isTerm ntype terminal),
          [] ++ news.filter (fun x => !isTerm ntype terminal x && isPass ntype x)) :=
        heq
      rw [show bfs adj ntype terminal (cur :: rest) seen found =
            bfs adj ntype terminal (rest ++ res.2.2) res.1 res.2.1 by
          simp [bfs]]
      refine ih ?_ ?_
      · simp only [hres]
        refine List.Nodup.append hnd (hndnews.filter _) ?_
        intro a ha1 ha2
        have h1 : a ∈ seen := hsub a ha1
        have h2 : a ∉ seen := (hfresh a (List.mem_filter.mp ha2).1).2
        exact h2 h1
      · simp only [hres]
        intro f hf
        rcases List.mem_append.mp hf with hf | hf
        · exact List.mem_append_left _ (hsub f hf)
        · exact List.mem_append_right _ (List.mem_filter.mp hf).1

/-- The traversal result has no duplicates. -/
theorem findImmediate_nodup (sfc : SFC) (s : String) (fwd : Bool) :
    (sfc.findImmediate s fwd).Nodup := by
  unfold SFC.findImmediate find_immediate_transitions
  exact bfs_found_nodup _ _ _ [s] [s] [] List.nodup_nil (by intro f hf; cases hf)

theorem nodup_keys_dictSet {α : Type} (d : List (String × α)) (k : String)
    (v : α) (h : (d.map Prod.fst).Nodup) :
    ((dictSet d k v).map Prod.fst).Nodup := by
  unfold dictSet
  cases hfind : d.find? (fun p => p.1 = k) with
  | none =>
      simp only [hfind, Option.isSome_none, Bool.false_eq_true, if_false]
      rw [List.map_append]
      refine List.Nodup.append h (by simp) ?_
      intro a ha hb
      simp only [List.map_cons, List.map_nil, List.mem_singleton] at hb
      subst hb
      obtain ⟨p, hp, hpk⟩ := List.mem_map.mp ha
      have := List.find?_eq_none.mp hfind p hp
      simp [hpk] at this
  | some p =>
      simp only [hfind, Option.isSome_some, if_true]
      have hmap : (d.map (fun p => if p.1 = k then (k, v) else p)).map Prod.fst =
          d.map Prod.fst := by
        rw [List.map_map]
        apply List.map_congr_left
        intro q _
        by_cases hq : q.1 = k <;> simp [hq]
      rw [hmap]
      exact h

theorem nodup_keys_get_elements_by_tag (parent : XmlElem) (t : String) :
    ((get_elements_by_tag parent t).map Prod.fst).Nodup := by
  unfold get_elements_by_tag
  have haux : ∀ (els : List XmlElem) (init : List (String × XmlElem)),
      (init.map Prod.fst).Nodup →
      ((els.foldl (fun out el =>
        match attribGet el "ID" with
        | none => out
        | some eid => dictSet out eid el) init).map Prod.fst).Nodup := by
    intro els
    induction els with
    | nil => intro init h; simpa using h
    | cons el rest ih =>
        intro init h
        simp only [List.foldl_cons]
        cases hid : attribGet el "ID" with
        | none => exact ih init h
        | some eid => exact ih _ (nodup_keys_dictSet init eid el h)
  exact haux _ [] (by simp)

theorem pairwise_le_sortByIntKey (l : List String) :
    (sortByIntKey l).Pairwise (fun a b => intKey a ≤ intKey b) := by
  have h := pairwise_insSort (fun a b => decide (intKey a ≤ intKey b))
    (fun a b => by
      rcases Int.le_total (intKey a) (intKey b) with h | h <;> simp [h])
    (fun a b c h1 h2 => by
      simp only [decide_eq_true_eq] at h1 h2 ⊢
      omega)
    l
  exact h.imp (fun h => by simpa using h)

theorem pairwise_lt_of_inj {l keys : List String}
    (hsub : ∀ x ∈ l, x ∈ keys)
    (hinj : ∀ a ∈ keys, ∀ b ∈ keys, intKey a = intKey b → a = b)
    (hle : l.Pairwise (fun a b => intKey a ≤ intKey b)) (hnd : l.Nodup) :
    l.Pairwise (fun a b => intKey a < intKey b) := by
  have hand := hle.and hnd
  refine hand.imp_of_mem ?_
  intro a b ha hb hab
  rcases hab with ⟨h1, h2⟩
  rcases lt_or_eq_of_le h1 with h | h
  · exact h
  · exact absurd (hinj a (hsub a ha) b (hsub b hb) h) h2

theorem nodup_step_outgoing (sfc : SFC) (sid : String) :
    (sfc.step_outgoing sid).Nodup :=
  nodup_insSort _ _
    ((nodup_insSort _ _ (findImmediate_nodup sfc sid true)).filter _)

theorem nodup_step_incoming (sfc : SFC) (sid : String) :
    (sfc.step_incoming sid).Nodup :=
  nodup_insSort _ _
    ((nodup_insSort _ _ (findImmediate_nodup sfc sid false)).filter _)

theorem step_outgoing_subset_keys (sfc : SFC) (sid t : String)
    (ht : t ∈ sfc.step_outgoing sid) : t ∈ sfc.transitions.map Prod.fst :=
  (dictGet_isSome_iff_mem_keys _ t).mp ((mem_step_outgoing sfc sid t).mp ht).2

theorem step_incoming_subset_keys (sfc : SFC) (sid t : String)
    (ht : t ∈ sfc.step_incoming sid) : t ∈ sfc.transitions.map Prod.fst :=
  (dictGet_isSome_iff_mem_keys _ t).mp ((mem_step_incoming sfc sid t).mp ht).2

/-- C4 (amended): every relation list is sorted non-decreasing by the
neighbor's ID parsed as an integer and contains no neighbor twice; it is
strictly ascending whenever distinct registered ids have distinct
numeric values (strictness as originally claimed fails when two distinct
ids, such as 1 and 01, parse to the same integer). -/
theorem C4_amended_relation_lists_sorted (root : XmlElem)
    (hnum : ∀ n ∈ ((SFC.ofElement root).steps.map Prod.fst ++
      (SFC.ofElement root).transitions.map Prod.fst), (pyIntString n).isSome)
    (hinjT : ∀ a ∈ (SFC.ofElement root).transitions.map Prod.fst,
      ∀ b ∈ (SFC.ofElement root).transitions.map Prod.fst,
        intKey a = intKey b → a = b)
    (hinjS : ∀ a ∈ (SFC.ofElement root).steps.map Prod.fst,
      ∀ b ∈ (SFC.ofElement root).steps.map Prod.fst,
        intKey a = intKey b → a = b)
    (sid tid : String) :
    (((SFC.ofElement root).step_outgoing sid).Pairwise
        (fun a b => intKey a < intKey b) ∧
      ((SFC.ofElement root).step_outgoing sid).Nodup) ∧
    (((SFC.ofElement root).step_incoming sid).Pairwise
        (fun a b => intKey a < intKey b) ∧
      ((SFC.ofElement root).step_incoming sid).Nodup) ∧
    (((SFC.ofElement root).transition_from_steps tid).Pairwise
        (fun a b => intKey a < intKey b) ∧
      ((SFC.ofElement root).transition_from_steps tid).Nodup) ∧
    (((SFC.ofElement root).transition_to_steps tid).Pairwise
        (fun a b => intKey a < intKey b) ∧
      ((SFC.ofElement root).transition_to_steps tid).Nodup) := by
  set sfc := SFC.ofElement root with hsfc
  have hstepkeys : (sfc.steps.map Prod.fst).Nodup := by
    rw [hsfc]
    exact nodup_keys_get_elements_by_tag root "Step"
  have hfromnd : (sfc.transition_from_steps tid).Nodup :=
    nodup_insSort _ _ (hstepkeys.filter _)
  have htond : (sfc.transition_to_steps tid).Nodup :=
    nodup_insSort _ _ (hstepkeys.filter _)
  have hfromsub : ∀ x ∈ sfc.transition_from_steps tid,
      x ∈ sfc.steps.map Prod.fst := fun x hx =>
    ((mem_transition_from_steps sfc tid x).mp hx).1
  have htosub : ∀ x ∈ sfc.transition_to_steps tid,
      x ∈ sfc.steps.map Prod.fst := fun x hx =>
    ((mem_transition_to_steps sfc tid x).mp hx).1
  refine ⟨⟨?_, nodup_step_outgoing sfc sid⟩, ⟨?_, nodup_step_incoming sfc sid⟩,
    ⟨?_, hfromnd⟩, ⟨?_, htond⟩⟩
  · exact pairwise_lt_of_inj (fun x hx => step_outgoing_subset_keys sfc sid x hx)
      hinjT (pairwise_le_sortByIntKey _) (nodup_step_outgoing sfc sid)
  · exact pairwise_lt_of_inj (fun x hx => step_incoming_subset_keys sfc sid x hx)
      hinjT (pairwise_le_sortByIntKey _) (nodup_step_incoming sfc sid)
  · exact pairwise_lt_of_inj hfromsub hinjS (pairwise_le_sortByIntKey _) hfromnd
  · exact pairwise_lt_of_inj htosub hinjS (pairwise_le_sortByIntKey _) htond

/-- C10 (implicit): no dangling references — every entry of every
resolved relation list is registered in the graph's own registries, and
an id with no registered Transition is silently skipped, producing no
reference on either the Step side or the Transition side. -/
theorem C10_no_dangling_references (sfc : SFC) (s t : String) :
    (t ∈ sfc.step_outgoing s → t ∈ sfc.transitions.map Prod.fst) ∧
    (t ∈ sfc.step_incoming s → t ∈ sfc.transitions.map Prod.fst) ∧
    (s ∈ sfc.transition_from_steps t → s ∈ sfc.steps.map Prod.fst) ∧
    (s ∈ sfc.transition_to_steps t → s ∈ sfc.steps.map Prod.fst) ∧
    (t ∉ sfc.transitions.map Prod.fst →
      t ∉ sfc.step_outgoing s ∧ t ∉ sfc.step_incoming s ∧
      sfc.transition_from_steps t = [] ∧ sfc.transition_to_steps t = []) := by
  refine ⟨step_outgoing_subset_keys sfc s t, step_incoming_subset_keys sfc s t,
    fun h => ((mem_transition_from_steps sfc t s).mp h).1,
    fun h => ((mem_transition_to_steps sfc t s).mp h).1, ?_⟩
  intro hreg
  have hfalse : (dictGet sfc.transitions t).isSome = false := by
    cases hb : (dictGet sfc.transitions t).isSome
    · rfl
    · exact absurd ((dictGet_isSome_iff_mem_keys _ t).mp hb) hreg
  refine ⟨?_, ?_, ?_, ?_⟩
  · intro hc
    rw [((mem_step_outgoing sfc s t).mp hc).2] at hfalse
    cases hfalse
  · intro hc
    rw [((mem_step_incoming sfc s t).mp hc).2] at hfalse
    cases hfalse
  · unfold SFC.transition_from_steps
    rw [show (sfc.steps.map Prod.fst).filter
        (fun sid => decide (t ∈ sfc.findImmediate sid true) &&
          (dictGet sfc.transitions t).isSome) = [] by
      rw [List.filter_eq_nil_iff]
      intro a _
      simp [hfalse]]
    rfl
  · unfold SFC.transition_to_steps
    rw [show (sfc.steps.map Prod.fst).filter
        (fun sid => decide (t ∈ sfc.findImmediate sid false) &&
          (dictGet sfc.transitions t).isSome) = [] by
      rw [List.filter_eq_nil_iff]
      intro a _
      simp [hfalse]]
    rfl

/-! ## Registration is last-write-wins -/

theorem dictGet_dictSet {α : Type} (d : List (String × α)) (k x : String)
    (v : α) :
    dictGet (dictSet d k v) x = if x = k then some v else dictGet d x := by
  unfold dictSet dictGet
  cases hfind : d.find? (fun p => p.1 = k) with
  | none =>
      simp only [hfind, Option.isSome_none, Bool.false_eq_true, if_false]
      rw [List.find?_append]
      by_cases hx : x = k
      · have hnone : d.find? (fun p : String × α => decide (p.1 = x)) = none := by
          rw [hx]; exact hfind
        have hone : List.find? (fun p : String × α => decide (p.1 = x))
            [(k, v)] = some (k, v) := by
          simp [List.find?, hx.symm]
        rw [hnone, hone, if_pos hx]
        rfl
      · have hone : List.find? (fun p : String × α => decide (p.1 = x))
            [(k, v)] = none := by
          have hkx : (decide (k = x)) = false :=
            decide_eq_false fun h => hx h.symm
          simp [List.find?, hkx]
        cases hfx : d.find? (fun p : String × α => decide (p.1 = x)) with
        | none => rw [hone, if_neg hx]; rfl
        | some r => rw [hone, if_neg hx]; rfl
  | some p =>
      have hpk : p.1 = k := by simpa using List.find?_some hfind
      have hcomp : ((fun p : String × α => decide (p.1 = x)) ∘
          (fun p : String × α => if p.1 = k then (k, v) else p)) =
          (fun p : String × α => decide (p.1 = x)) := by
        funext q
        by_cases hq : q.1 = k <;> simp [hq, hpk]
      simp only [hfind, Option.isSome_some, if_true]
      rw [List.find?_map, hcomp]
      by_cases hx : x = k
      · subst hx
        rw [hfind]
        simp [hpk]
      · cases hfx : d.find? (fun p : String × α => decide (p.1 = x)) with
        | none => simp [hfx, hx]
        | some r =>
            have hrx : r.1 = x := by simpa using List.find?_some hfx
            have hrk : ¬(r.1 = k) := by rw [hrx]; exact hx
            simp [hfx, hx, hrk]

theorem getLast?_cons_or {α : Type} (a : α) (l : List α) :
    (a :: l).getLast? = l.getLast?.or (some a) := by
  induction l generalizing a with
  | nil => rfl
  | cons b bs ih =>
      rw [List.getLast?_cons_cons, ih b]
      cases hbs : bs.getLast? <;> rfl

/-- Folding registration over an element list looks up to the last
matching element, falling back to the initial dictionary. -/
theorem get_elements_fold_lookup (els : List XmlElem) (eid : String) :
    ∀ init : List (String × XmlElem),
      dictGet (els.foldl (fun out el =>
        match attribGet el "ID" with
        | none => out
        | some e => dictSet out e el) init) eid =
      ((els.filter (fun el => decide (attribGet el "ID" = some eid))).getLast?).or
        (dictGet init eid) := by
  induction els with
  | nil => intro init; simp
  | cons el rest ih =>
      intro init
      simp only [List.foldl_cons]
      cases hid : attribGet el "ID" with
      | none =>
          rw [ih init]
          simp [hid]
      | some e =>
          rw [ih (dictSet init e el), dictGet_dictSet]
          by_cases he : eid = e
          · rw [if_pos he]
            have hpred : (decide (attribGet el "ID" = some eid)) = true := by
              simp [hid, he]
            simp only [List.filter_cons, hpred, if_true]
            rw [getLast?_cons_or]
            generalize (List.filter
              (fun el => decide (attribGet el "ID" = some eid)) rest).getLast? = z
            cases z <;> rfl
          · rw [if_neg he]
            have hpred : (decide (attribGet el "ID" = some eid)) = false := by
              simp [hid]
              exact fun h => he h.symm
            simp only [List.filter_cons, hpred, Bool.false_eq_true, if_false]

/-- C9: duplicate-ID registration is last-write-wins — when several
elements of one kind carry the same ID, the registry afterwards holds
exactly one entry under that ID, built from the element latest in
document order, and registration never raises (the model is total):
lookup equals the last matching element of the tag scan, and registry
keys never repeat. -/
theorem C9_last_write_wins (parent : XmlElem) (t eid : String) :
    dictGet (get_elements_by_tag parent t) eid =
      ((findall parent t).filter
        (fun el => decide (attribGet el "ID" = some eid))).getLast? ∧
    ((get_elements_by_tag parent t).map Prod.fst).Nodup := by
  constructor
  · unfold get_elements_by_tag
    rw [get_elements_fold_lookup]
    simp [dictGet]
  · exact nodup_keys_get_elements_by_tag parent t

/-- C5 counterexample: the condition accessor of a Transition element
that has no Condition child returns absent (None), not a list, refuting
the claim that every Transition yields a list. -/
theorem C5_counterexample :
    (Transition.condition (XmlElem.mk "Transition" [("ID", "41")] none
      [])).isSome = false := by
  rfl

/-- C5 (amended): the condition accessor returns the ordered list of
non-empty whitespace-stripped text lines of the Condition content when
the Condition child and its STContent child are both present; when
either is missing it returns absent (None), not a list. -/
theorem C5_amended_condition_lines (el c stc : XmlElem) :
    (findFirst el "Condition" = none → Transition.condition el = none) ∧
    (findFirst el "Condition" = some c → findFirst c "STContent" = none →
      Transition.condition el = none) ∧
    (findFirst el "Condition" = some c → findFirst c "STContent" = some stc →
      Transition.condition el =
        some ((findall stc "Line").filterMap
          (fun le => (lineText le).bind (fun t => truthy (pyStrip t))))) := by
  refine ⟨?_, ?_, ?_⟩
  · intro h
    unfold Transition.condition
    rw [h]
  · intro h1 h2
    unfold Transition.condition
    simp only [h1, h2]
  · intro h1 h2
    unfold Transition.condition
    simp only [h1, h2]
    congr 1
    unfold stLines
    apply List.filterMap_congr
    intro le _
    cases lineText le <;> rfl

/-- C7: operand round-trip — whenever some Step's operand label parses
to n, get_step_by_operand n returns a Step whose operand number is n,
namely the first such Step in registry iteration order; it returns
absent when no Step matches; and a numeric string argument behaves like
the integer it parses to. -/
theorem C7_operand_round_trip (sfc : SFC) (n : Int) :
    ((∃ p ∈ sfc.steps, int_operand p.2 = some n) →
      ∃ el, sfc.get_step_by_operand n = some el ∧ int_operand el = some n) ∧
    (∀ pre p post, sfc.steps = pre ++ p :: post →
      (∀ q ∈ pre, ¬ int_operand q.2 = some n) → int_operand p.2 = some n →
      sfc.get_step_by_operand n = some p.2) ∧
    ((∀ p ∈ sfc.steps, ¬ int_operand p.2 = some n) →
      sfc.get_step_by_operand n = none) ∧
    (∀ s, pyIntString s = some n →
      sfc.get_step_by_operand_str s = .ok (sfc.get_step_by_operand n)) := by
  refine ⟨?_, ?_, ?_, ?_⟩
  · rintro ⟨p, hp, hpn⟩
    unfold SFC.get_step_by_operand
    have hsome : (sfc.steps.find?
        (fun p => decide (int_operand p.2 = some n))).isSome := by
      rw [List.find?_isSome]
      exact ⟨p, hp, by simpa using hpn⟩
    obtain ⟨q, hq⟩ := Option.isSome_iff_exists.mp hsome
    refine ⟨q.2, ?_, ?_⟩
    · rw [hq]
      rfl
    · simpa using List.find?_some hq
  · intro pre p post hsplit hpre hp
    unfold SFC.get_step_by_operand
    rw [hsplit, List.find?_append]
    have hprenone : pre.find? (fun p => decide (int_operand p.2 = some n)) =
        none := by
      rw [List.find?_eq_none]
      intro q hq
      simpa using hpre q hq
    have hcons : (p :: post).find?
        (fun p => decide (int_operand p.2 = some n)) = some p := by
      rw [List.find?_cons_of_pos]
      simpa using hp
    rw [hprenone, hcons]
    rfl
  · intro hall
    unfold SFC.get_step_by_operand
    rw [List.find?_eq_none.mpr (fun q hq => by simpa using hall q hq)]
    rfl
  · intro s hs
    unfold SFC.get_step_by_operand_str
    cases hsteps : sfc.steps with
    | nil =>
        have : sfc.get_step_by_operand n = none := by
          unfold SFC.get_step_by_operand
          rw [hsteps]
          rfl
        rw [this]
    | cons a rest =>
        rw [hs]

/-- C8: preset loading — a Step whose operand label exactly matches an
external tag's Name and whose tag holds a PRE value member with an
integer-parseable Value ends with that integer as preset; a missing
operand, no matching tag, no PRE member, a missing Value or a failing
parse all leave the preset absent; the model is total, so no case
raises. -/
theorem C8_preset_loading (tags stepEl : XmlElem) (operand : String)
    (tagEl pre : XmlElem) (v : String) (k : Int) :
    (attribGet stepEl "Operand" = none → load_step_preset tags stepEl = none) ∧
    (attribGet stepEl "Operand" = some operand →
      (¬ ∃ d ∈ descendants tags, d.tag = "Tag" ∧
        attribGet d "Name" = some operand) →
      load_step_preset tags stepEl = none) ∧
    (attribGet stepEl "Operand" = some operand →
      findDescWithAttr tags "Tag" "Name" operand = some tagEl →
      (¬ ∃ d ∈ descendants tagEl, d.tag = "DataValueMember" ∧
        attribGet d "Name" = some "PRE") →
      load_step_preset tags stepEl = none) ∧
    (attribGet stepEl "Operand" = some operand →
      findDescWithAttr tags "Tag" "Name" operand = some tagEl →
      findDescWithAttr tagEl "DataValueMember" "Name" "PRE" = some pre →
      attribGet pre "Value" = some v → pyIntString v = some k →
      load_step_preset tags stepEl = some k) ∧
    (attribGet stepEl "Operand" = some operand →
      findDescWithAttr tags "Tag" "Name" operand = some tagEl →
      findDescWithAttr tagEl "DataValueMember" "Name" "PRE" = some pre →
      attribGet pre "Value" = some v → pyIntString v = none →
      load_step_preset tags stepEl = none) := by
  refine ⟨?_, ?_, ?_, ?_, ?_⟩
  · intro h
    unfold load_step_preset
    rw [h]
  · intro h1 h2
    unfold load_step_preset
    have hnone : findDescWithAttr tags "Tag" "Name" operand = none := by
      unfold findDescWithAttr
      rw [List.find?_eq_none]
      intro d hd hc
      simp only [Bool.and_eq_true, decide_eq_true_eq] at hc
      exact h2 ⟨d, hd, hc.1, by simpa using hc.2⟩
    simp only [h1, hnone]
  · intro h1 h2 h3
    unfold load_step_preset
    have hnone : findDescWithAttr tagEl "DataValueMember" "Name" "PRE" = none := by
      unfold findDescWithAttr
      rw [List.find?_eq_none]
      intro d hd hc
      simp only [Bool.and_eq_true, decide_eq_true_eq] at hc
      exact h3 ⟨d, hd, hc.1, by simpa using hc.2⟩
    simp only [h1, h2, hnone]
  · intro h1 h2 h3 h4 h5
    unfold load_step_preset
    simp only [h1, h2, h3, h4, h5]
  · intro h1 h2 h3 h4 h5
    unfold load_step_preset
    simp only [h1, h2, h3, h4, h5]

/-! ## Structure of the action grouping -/

theorem action_map_eq_buildMap (sfc : SFC) :
    sfc.action_map = buildMap (actionPairs sfc.steps) := by
  unfold SFC.action_map actionPairs buildMap
  have haux : ∀ (entries : List (String × XmlElem))
      (m : List (String × List String)),
      entries.foldl (fun m p => if (Step.st p.2).isEmpty then m
        else adjAppend m (String.intercalate "\n" (Step.st p.2)) p.1) m =
      (entries.filterMap (fun p => if (Step.st p.2).isEmpty then none
        else some (String.intercalate "\n" (Step.st p.2), p.1))).foldl
        (fun m e => adjAppend m e.1 e.2) m := by
    intro entries
    induction entries with
    | nil => intro m; rfl
    | cons p rest ih =>
        intro m
        simp only [List.foldl_cons, List.filterMap_cons]
        by_cases hp : (Step.st p.2).isEmpty
        · simp only [hp, if_true]
          exact ih m
        · simp only [hp, Bool.false_eq_true, if_false, List.foldl_cons]
          exact ih _
  exact haux _ []

theorem mem_keys_adjAppend (m : List (String × List String)) (k v x : String) :
    x ∈ (adjAppend m k v).map Prod.fst ↔ x ∈ m.map Prod.fst ∨ x = k := by
  unfold adjAppend
  cases hfind : m.find? (fun p => p.1 = k) with
  | none =>
      simp only [hfind, Option.isSome_none, Bool.false_eq_true, if_false,
        List.map_append, List.mem_append, List.map_cons, List.map_nil,
        List.mem_singleton]
  | some p =>
      have hpk : p.1 = k := by simpa using List.find?_some hfind
      have hp : p ∈ m := List.mem_of_find?_eq_some hfind
      have hk : k ∈ m.map Prod.fst := List.mem_map.mpr ⟨p, hp, hpk⟩
      simp only [hfind, Option.isSome_some, if_true]
      have hmap : (m.map (fun p => if p.1 = k then (p.1, p.2 ++ [v]) else p)).map
          Prod.fst = m.map Prod.fst := by
        rw [List.map_map]
        apply List.map_congr_left
        intro q _
        by_cases hq : q.1 = k <;> simp [hq]
      rw [hmap]
      constructor
      · exact Or.inl
      · rintro (h | rfl)
        · exact h
        · exact hk

theorem mem_keys_buildMap_fold (es : List (String × String)) (x : String) :
    ∀ m, x ∈ (es.foldl (fun m e => adjAppend m e.1 e.2) m).map Prod.fst ↔
      x ∈ m.map Prod.fst ∨ ∃ v, (x, v) ∈ es := by
  induction es with
  | nil => intro m; simp
  | cons e rest ih =>
      intro m
      simp only [List.foldl_cons]
      rw [ih]
      rw [mem_keys_adjAppend]
      constructor
      · rintro ((h | rfl) | ⟨v, hv⟩)
        · exact Or.inl h
        · exact Or.inr ⟨e.2, List.mem_cons_self _ _⟩
        · exact Or.inr ⟨v, List.mem_cons_of_mem _ hv⟩
      · rintro (h | ⟨v, hv⟩)
        · exact Or.inl (Or.inl h)
        · rcases List.mem_cons.mp hv with heq | hv2
          · exact Or.inl (Or.inr (congrArg Prod.fst heq.symm ▸ rfl))
          · exact Or.inr ⟨v, hv2⟩

theorem mem_keys_buildMap (es : List (String × String)) (x : String) :
    x ∈ (buildMap es).map Prod.fst ↔ ∃ v, (x, v) ∈ es := by
  unfold buildMap
  rw [mem_keys_buildMap_fold]
  simp

theorem nodup_keys_adjAppend (m : List (String × List String)) (k v : String)
    (h : (m.map Prod.fst).Nodup) : ((adjAppend m k v).map Prod.fst).Nodup := by
  unfold adjAppend
  cases hfind : m.find? (fun p => p.1 = k) with
  | none =>
      simp only [hfind, Option.isSome_none, Bool.false_eq_true, if_false]
      rw [List.map_append]
      refine List.Nodup.append h (by simp) ?_
      intro a ha hb
      simp only [List.map_cons, List.map_nil, List.mem_singleton] at hb
      subst hb
      obtain ⟨p, hp, hpk⟩ := List.mem_map.mp ha
      have := List.find?_eq_none.mp hfind p hp
      simp [hpk] at this
  | some p =>
      simp only [hfind, Option.isSome_some, if_true]
      have hmap : (m.map (fun p => if p.1 = k then (p.1, p.2 ++ [v]) else p)).map
          Prod.fst = m.map Prod.fst := by
        rw [List.map_map]
        apply List.map_congr_left
        intro q _
        by_cases hq : q.1 = k <;> simp [hq]
      rw [hmap]
      exact h

theorem nodup_keys_buildMap (es : List (String × String)) :
    ((buildMap es).map Prod.fst).Nodup := by
  unfold buildMap
  have haux : ∀ (es : List (String × String)) (m : List (String × List String)),
      (m.map Prod.fst).Nodup →
      ((es.foldl (fun m e => adjAppend m e.1 e.2) m).map Prod.fst).Nodup := by
    intro es
    induction es with
    | nil => intro m h; simpa using h
    | cons e rest ih =>
        intro m h
        simp only [List.foldl_cons]
        exact ih _ (nodup_keys_adjAppend m e.1 e.2 h)
  exact haux es [] (by simp)

theorem find?_eq_of_mem_nodup {α : Type} (m : List (String × α)) (k : String)
    (l : α) (hnd : (m.map Prod.fst).Nodup) (hm : (k, l) ∈ m) :
    m.find? (fun p => p.1 = k) = some (k, l) := by
  induction m with
  | nil => cases hm
  | cons q rest ih =>
      rcases List.mem_cons.mp hm with rfl | hm2
      · rw [List.find?_cons_of_pos]
        simp
      · rw [List.map_cons] at hnd
        have hnd2 := List.nodup_cons.mp hnd
        by_cases hq : q.1 = k
        · exfalso
          have : k ∈ rest.map Prod.fst := List.mem_map.mpr ⟨(k, l), hm2, rfl⟩
          rw [← hq] at this
          exact hnd2.1 this
        · rw [List.find?_cons_of_neg]
          · exact ih hnd2.2 hm2
          · simpa using hq

theorem dictGet_eq_some_iff {α : Type} (d : List (String × α)) (k : String)
    (v : α) (hnd : (d.map Prod.fst).Nodup) :
    dictGet d k = some v ↔ (k, v) ∈ d := by
  constructor
  · intro h
    unfold dictGet at h
    cases hfind : d.find? (fun p => p.1 = k) with
    | none => rw [hfind] at h; cases h
    | some p =>
        rw [hfind] at h
        have hp : p ∈ d := List.mem_of_find?_eq_some hfind
        have hpk : p.1 = k := by simpa using List.find?_some hfind
        have hpv : p.2 = v := by simpa using h
        have : p = (k, v) := Prod.ext hpk hpv
        rwa [this] at hp
  · intro h
    unfold dictGet
    rw [find?_eq_of_mem_nodup d k v hnd h]
    rfl

theorem mem_actionPairs (entries : List (String × XmlElem)) (k sid : String) :
    (k, sid) ∈ actionPairs entries ↔
      ∃ el, (sid, el) ∈ entries ∧ Step.st el ≠ [] ∧
        String.intercalate "\n" (Step.st el) = k := by
  unfold actionPairs
  rw [List.mem_filterMap]
  constructor
  · rintro ⟨p, hp, hpk⟩
    by_cases hempty : (Step.st p.2).isEmpty
    · rw [if_pos hempty] at hpk
      cases hpk
    · rw [if_neg hempty] at hpk
      have hpair : (String.intercalate "\n" (Step.st p.2), p.1) = (k, sid) :=
        Option.some_injective _ hpk
      have h1 : String.intercalate "\n" (Step.st p.2) = k :=
        congrArg Prod.fst hpair
      have h2 : p.1 = sid := congrArg Prod.snd hpair
      refine ⟨p.2, ?_, ?_, h1⟩
      · rw [← h2]
        exact hp
      · intro hc
        rw [hc] at hempty
        exact hempty rfl
  · rintro ⟨el, hel, hne, hk⟩
    refine ⟨(sid, el), hel, ?_⟩
    have hempty : (Step.st el).isEmpty = false := by
      cases hst : Step.st el with
      | nil => exact absurd hst hne
      | cons a l => rfl
    simp only [hempty, Bool.false_eq_true, if_false, hk]

theorem mem_group_action_map (sfc : SFC) (g : String × List String)
    (hg : g ∈ sfc.action_map) (sid : String) :
    sid ∈ g.2 ↔ (g.1, sid) ∈ actionPairs sfc.steps := by
  rw [action_map_eq_buildMap] at hg
  have hnd := nodup_keys_buildMap (actionPairs sfc.steps)
  have hGet : adjGet (buildMap (actionPairs sfc.steps)) g.1 = g.2 := by
    unfold adjGet
    rw [find?_eq_of_mem_nodup _ g.1 g.2 hnd hg]
    rfl
  rw [← hGet, mem_adjGet_buildMap]

theorem mem_actions_iff (sfc : SFC) (g : String × List String) :
    g ∈ sfc.actions ↔ ∃ g0 ∈ sfc.action_map,
      g = (g0.1, insSort stepActionKeyLe g0.2) := by
  unfold SFC.actions
  rw [mem_insSort, List.mem_map]
  constructor
  · rintro ⟨g0, hg0, rfl⟩
    exact ⟨g0, hg0, rfl⟩
  · rintro ⟨g0, hg0, rfl⟩
    exact ⟨g0, hg0, rfl⟩

theorem stepActionKeyLe_total (a b : String) :
    stepActionKeyLe a b = true ∨ stepActionKeyLe b a = true := by
  unfold stepActionKeyLe
  cases stepActionKey a with
  | none =>
      cases stepActionKey b with
      | none => exact Or.inl rfl
      | some n => exact Or.inr rfl
  | some m =>
      cases stepActionKey b with
      | none => exact Or.inl rfl
      | some n =>
          rcases Nat.le_total m n with h | h
          · exact Or.inl (by simpa using h)
          · exact Or.inr (by simpa using h)

theorem stepActionKeyLe_trans (a b c : String)
    (h1 : stepActionKeyLe a b = true) (h2 : stepActionKeyLe b c = true) :
    stepActionKeyLe a c = true := by
  unfold stepActionKeyLe at h1 h2 ⊢
  cases ha : stepActionKey a with
  | none =>
      rw [ha] at h1
      cases hb : stepActionKey b with
      | none =>
          rw [hb] at h2
          cases hc : stepActionKey c with
          | none => rfl
          | some p => rw [hc] at h2; cases h2
      | some n => rw [hb] at h1; cases h1
  | some m =>
      rw [ha] at h1
      cases hc : stepActionKey c with
      | none => rfl
      | some p =>
          cases hb : stepActionKey b with
          | none => rw [hb, hc] at h2; cases h2
          | some n =>
              rw [hb] at h1
              rw [hb, hc] at h2
              simp only [decide_eq_true_eq] at h1 h2 ⊢
              omega

/-- C6: the union of the Steps across all action groups is exactly the
set of Steps whose extracted action text is non-empty; the groups are
pairwise disjoint; groups are ordered strictly ascending by their joined
action text; and inside each group the Steps are ordered ascending by
numeric id with non-numeric ids sorting last. -/
theorem C6_action_grouping_partitions (sfc : SFC)
    (hndS : (sfc.steps.map Prod.fst).Nodup) :
    (∀ sid, (∃ g ∈ sfc.actions, sid ∈ g.2) ↔
      (∃ el, dictGet sfc.steps sid = some el ∧ Step.st el ≠ [])) ∧
    (∀ g ∈ sfc.actions, ∀ sid ∈ g.2, ∃ el,
      dictGet sfc.steps sid = some el ∧ Step.st el ≠ [] ∧
        String.intercalate "\n" (Step.st el) = g.1) ∧
    (sfc.actions.Pairwise (fun g1 g2 => ∀ sid, sid ∈ g1.2 → sid ∉ g2.2)) ∧
    ((sfc.actions.map Prod.fst).Pairwise (fun a b => a < b)) ∧
    (∀ g ∈ sfc.actions, g.2.Pairwise (fun a b => stepActionKeyLe a b = true)) := by
  have hmember : ∀ g ∈ sfc.actions, ∀ sid, (sid ∈ g.2 ↔
      ∃ el, dictGet sfc.steps sid = some el ∧ Step.st el ≠ [] ∧
        String.intercalate "\n" (Step.st el) = g.1) := by
    intro g hg sid
    obtain ⟨g0, hg0, rfl⟩ := (mem_actions_iff sfc g).mp hg
    rw [show ((g0.1, insSort stepActionKeyLe g0.2) :
        String × List String).2 = insSort stepActionKeyLe g0.2 from rfl]
    rw [mem_insSort]
    rw [mem_group_action_map sfc g0 hg0 sid]
    rw [mem_actionPairs]
    constructor
    · rintro ⟨el, hel, hne, hk⟩
      exact ⟨el, (dictGet_eq_some_iff sfc.steps sid el hndS).mpr hel, hne, hk⟩
    · rintro ⟨el, hel, hne, hk⟩
      exact ⟨el, (dictGet_eq_some_iff sfc.steps sid el hndS).mp hel, hne, hk⟩
  have hkeysnd : ((sfc.action_map).map Prod.fst).Nodup := by
    rw [action_map_eq_buildMap]
    exact nodup_keys_buildMap _
  refine ⟨?_, ?_, ?_, ?_, ?_⟩
  · intro sid
    constructor
    · rintro ⟨g, hg, hsid⟩
      obtain ⟨el, h1, h2, _⟩ := (hmember g hg sid).mp hsid
      exact ⟨el, h1, h2⟩
    · rintro ⟨el, hel, hne⟩
      have hpair : (String.intercalate "\n" (Step.st el), sid) ∈
          actionPairs sfc.steps :=
        (mem_actionPairs sfc.steps _ sid).mpr
          ⟨el, (dictGet_eq_some_iff sfc.steps sid el hndS).mp hel, hne, rfl⟩
      have hkey : String.intercalate "\n" (Step.st el) ∈
          (buildMap (actionPairs sfc.steps)).map Prod.fst :=
        (mem_keys_buildMap _ _).mpr ⟨sid, hpair⟩
      obtain ⟨g0, hg0, hg0k⟩ := List.mem_map.mp hkey
      have hg0m : g0 ∈ sfc.action_map := by
        rw [action_map_eq_buildMap]
        exact hg0
      have hsid : sid ∈ g0.2 := by
        rw [mem_group_action_map sfc g0 hg0m sid, hg0k]
        exact hpair
      refine ⟨(g0.1, insSort stepActionKeyLe g0.2),
        (mem_actions_iff sfc _).mpr ⟨g0, hg0m, rfl⟩, ?_⟩
      rw [show ((g0.1, insSort stepActionKeyLe g0.2) :
          String × List String).2 = insSort stepActionKeyLe g0.2 from rfl]
      rw [mem_insSort]
      exact hsid
  · intro g hg sid hsid
    exact (hmember g hg sid).mp hsid
  · have hperm := perm_insSort
      (fun g1 g2 : String × List String => decide (g1.1 ≤ g2.1))
      ((sfc.action_map).map (fun g => (g.1, insSort stepActionKeyLe g.2)))
    refine (List.Perm.pairwise_iff
      (fun {x y} h sid hs2 hs1 => h sid hs1 hs2) hperm).mpr ?_
    rw [List.pairwise_map]
    have hne : sfc.action_map.Pairwise (fun g1 g2 => g1.1 ≠ g2.1) := by
      have hx := hkeysnd
      unfold List.Nodup at hx
      rwa [List.pairwise_map] at hx
    refine hne.imp_of_mem ?_
    intro g1 g2 h1 h2 hne12 sid hs1 hs2
    rw [show ((g1.1, insSort stepActionKeyLe g1.2) :
        String × List String).2 = insSort stepActionKeyLe g1.2 from rfl] at hs1
    rw [show ((g2.1, insSort stepActionKeyLe g2.2) :
        String × List String).2 = insSort stepActionKeyLe g2.2 from rfl] at hs2
    rw [mem_insSort] at hs1 hs2
    obtain ⟨el1, hel1, hne1, hk1⟩ := (mem_actionPairs sfc.steps g1.1 sid).mp
      ((mem_group_action_map sfc g1 h1 sid).mp hs1)
    obtain ⟨el2, hel2, hne2, hk2⟩ := (mem_actionPairs sfc.steps g2.1 sid).mp
      ((mem_group_action_map sfc g2 h2 sid).mp hs2)
    have he1 : dictGet sfc.steps sid = some el1 :=
      (dictGet_eq_some_iff sfc.steps sid el1 hndS).mpr hel1
    have he2 : dictGet sfc.steps sid = some el2 :=
      (dictGet_eq_some_iff sfc.steps sid el2 hndS).mpr hel2
    have heq : el1 = el2 := Option.some_injective _ (he1.symm.trans he2)
    rw [heq] at hk1
    exact hne12 (hk1.symm.trans hk2)
  · have hle : sfc.actions.Pairwise (fun g1 g2 :
        String × List String => g1.1 ≤ g2.1) := by
      have h := pairwise_insSort
        (fun g1 g2 : String × List String => decide (g1.1 ≤ g2.1))
        (fun a b => by
          rcases le_total a.1 b.1 with h | h
          · exact Or.inl (by simpa using h)
          · exact Or.inr (by simpa using h))
        (fun a b c h1 h2 => by
          simp only [decide_eq_true_eq] at h1 h2 ⊢
          exact le_trans h1 h2)
        ((sfc.action_map).map (fun g => (g.1, insSort stepActionKeyLe g.2)))
      exact h.imp (fun h => by simpa using h)
    have hfstnd : (sfc.actions.map Prod.fst).Nodup := by
      have hperm : (sfc.actions.map Prod.fst).Perm
          ((((sfc.action_map).map
            (fun g => (g.1, insSort stepActionKeyLe g.2))).map Prod.fst)) :=
        (perm_insSort _ _).map Prod.fst
      rw [hperm.nodup_iff]
      rw [List.map_map]
      simpa using hkeysnd
    have hneq : sfc.actions.Pairwise (fun g1 g2 :
        String × List String => g1.1 ≠ g2.1) := by
      have hx := hfstnd
      unfold List.Nodup at hx
      rwa [List.pairwise_map] at hx
    rw [List.pairwise_map]
    exact (hle.and hneq).imp (fun h => lt_of_le_of_ne h.1 h.2)
  · intro g hg
    obtain ⟨g0, hg0, rfl⟩ := (mem_actions_iff sfc g).mp hg
    exact pairwise_insSort stepActionKeyLe stepActionKeyLe_total
      stepActionKeyLe_trans g0.2

/-- C4 counterexample: in the duplicate-numeric-id chart the resolved
outgoing list of Step 0 holds the distinct Transitions 1 and 01 whose
ids both parse to 1, so the list is not strictly ascending by the id
parsed as an integer. -/
theorem C4_counterexample :
    ¬ (dupSFC.step_outgoing "0").Pairwise
      (fun a b => intKey a < intKey b) := by
  have hlist : dupSFC.step_outgoing "0" = ["1", "01"] := by
    unfold SFC.step_outgoing SFC.findImmediate find_immediate_transitions
    simp only [bfs]
    rw [show ([] ++ (processNeighbors (node_type dupSFC) NodeType.transition
        (adjGet (if True then dupSFC.adj else dupSFC.radj) "0")
        ["0"] [] []).2.2 : List String) = [] from rfl]
    simp only [bfs]
    rfl
  rw [hlist]
  intro hc
  have h1 := (List.pairwise_cons.mp hc).1 "01" (List.mem_singleton_self _)
  exact absurd h1 (by decide)

/-- C1 witness: in the scenario chart, Step 0 is of Step kind and the
characterization theorem instantiates at Step 0 and Transition 39. -/
theorem C1_witness :
    node_type exSFC "0" = NodeType.step ∧
    ("39" ∈ exSFC.step_outgoing "0" ↔
      node_type exSFC "39" = NodeType.transition ∧
        BLPath (fun x y => (x, y) ∈ exSFC.edges) (passNode (node_type exSFC))
          "0" "39") :=
  ⟨by decide, (C1_resolved_sets_are_pass_through_paths exSFC "0" "39"
    (by decide)).1⟩

/-- C2 witness: in the scenario chart, node 39 is of Transition kind and
the step-side wiring agrees with the direct search from Transition 39. -/
theorem C2_witness :
    node_type exSFC "39" = NodeType.transition ∧
    ("0" ∈ exSFC.transition_from_steps "39" ↔
      "0" ∈ find_immediate_steps exSFC.radj (node_type exSFC) "39") :=
  ⟨by decide, (C2_step_side_wiring_equals_direct_transition_search exSFC "39"
    (by decide) "0").1⟩

/-- C3 witness: Step 0 is registered in the scenario chart and
bidirectionality instantiates at Step 0 and Transition 39. -/
theorem C3_witness :
    "0" ∈ exSFC.steps.map Prod.fst ∧
    ("39" ∈ exSFC.step_outgoing "0" ↔ "0" ∈ exSFC.transition_from_steps "39") :=
  ⟨by decide, (C3_bidirectionality exSFC "0" "39" (by decide)).1⟩

/-- C4 witness: the scenario chart has numeric, injectively parsing ids,
and its relation lists are strictly ascending and duplicate-free. -/
theorem C4_witness :
    (∀ n ∈ ((SFC.ofElement exChart).steps.map Prod.fst ++
      (SFC.ofElement exChart).transitions.map Prod.fst),
        (pyIntString n).isSome) ∧
    ((SFC.ofElement exChart).step_outgoing "0").Pairwise
      (fun a b => intKey a < intKey b) :=
  ⟨by decide, ((C4_amended_relation_lists_sorted exChart (by decide)
    (by decide) (by decide) "0" "39").1).1⟩

/-- C5 witness: the scenario Transition 39 has a Condition with an
STContent child, and its condition accessor yields the collected lines. -/
theorem C5_witness :
    findFirst exTr39 "Condition" = some exCondEl ∧
    findFirst exCondEl "STContent" = some exStc ∧
    Transition.condition exTr39 =
      some ((findall exStc "Line").filterMap
        (fun le => (lineText le).bind (fun t => truthy (pyStrip t)))) :=
  ⟨rfl, rfl, (C5_amended_condition_lines exTr39 exCondEl exStc).2.2 rfl rfl⟩

/-- C6 witness: the scenario chart has duplicate-free step ids, and its
action groups are strictly ascending by action text. -/
theorem C6_witness :
    ((exSFC.steps.map Prod.fst).Nodup) ∧
    ((exSFC.actions.map Prod.fst).Pairwise (fun a b => a < b)) :=
  ⟨by decide, (C6_action_grouping_partitions exSFC (by decide)).2.2.2.1⟩

/-- C7 witness: the scenario chart has a Step with operand number 0, and
the lookup returns a Step with that operand number. -/
theorem C7_witness :
    (∃ p ∈ exSFC.steps, int_operand p.2 = some 0) ∧
    (∃ el, exSFC.get_step_by_operand 0 = some el ∧ int_operand el = some 0) :=
  ⟨by decide, (C7_operand_round_trip exSFC 0).1 (by decide)⟩

theorem descendants_exDVM : descendants exDVM = [] := by
  rw [descendants_eq]
  rfl

theorem descendants_exStruct : descendants exStruct = [exDVM] := by
  rw [descendants_eq]
  show ([exDVM].map (fun c => c :: descendants c)).flatten = [exDVM]
  simp only [List.map_cons, List.map_nil, descendants_exDVM]
  rfl

theorem descendants_exData : descendants exData = [exStruct, exDVM] := by
  rw [descendants_eq]
  show ([exStruct].map (fun c => c :: descendants c)).flatten = [exStruct, exDVM]
  simp only [List.map_cons, List.map_nil, descendants_exStruct]
  rfl

theorem descendants_exTag : descendants exTag = [exData, exStruct, exDVM] := by
  rw [descendants_eq]
  show ([exData].map (fun c => c :: descendants c)).flatten =
    [exData, exStruct, exDVM]
  simp only [List.map_cons, List.map_nil, descendants_exData]
  rfl

theorem descendants_exTags :
    descendants exTags = [exTag, exData, exStruct, exDVM] := by
  rw [descendants_eq]
  show ([exTag].map (fun c => c :: descendants c)).flatten =
    [exTag, exData, exStruct, exDVM]
  simp only [List.map_cons, List.map_nil, descendants_exTag]
  rfl

theorem findTag_exTags :
    findDescWithAttr exTags "Tag" "Name" "Step_004" = some exTag := by
  unfold findDescWithAttr
  rw [descendants_exTags]
  rfl

theorem findPre_exTag :
    findDescWithAttr exTag "DataValueMember" "Name" "PRE" = some exDVM := by
  unfold findDescWithAttr
  rw [descendants_exTag]
  rfl

/-- C8 witness: the spec preset scenario — tag Step_004 with a PRE value
member 500 gives the Step with operand Step_004 the preset 500. -/
theorem C8_witness :
    attribGet exStep4 "Operand" = some "Step_004" ∧
    pyIntString "500" = some 500 ∧
    load_step_preset exTags exStep4 = some 500 :=
  ⟨rfl, by decide,
    (C8_preset_loading exTags exStep4 "Step_004" exTag exDVM "500" 500).2.2.2.1
      rfl findTag_exTags findPre_exTag rfl (by decide)⟩

/-- C10 witness: id 999 names no registered Transition of the scenario
chart, so no reference to it is created on either side. -/
theorem C10_witness :
    "999" ∉ exSFC.transitions.map Prod.fst ∧
    exSFC.transition_from_steps "999" = [] :=
  ⟨by decide,
    ((C10_no_dangling_references exSFC "0" "999").2.2.2.2 (by decide)).2.2.1⟩

end L5X
